import Mathlib

/-!
A verification development for the gotreesitter parsing runtime.

Each section shallowly embeds one part of the Go source:
* the external scanner bytecode VM (`external_vm.go`),
* the node arena allocator (`arena.go`),
* the incremental reuse cursor and graft admissibility check (`incremental.go`),
* the GLR stack merge (`glr.go`).

Machine integers are modelled as `Nat`/`Int` with explicit wrap-around
where the Go code relies on it; byte buffers are `List Nat`; Go functions
returning `(T, bool)` become `Option T`; fallible constructors become
`Except String`.
-/

set_option maxHeartbeats 1000000

namespace GoTreeSitter

/-! ## External scanner VM (`src/external_vm.go`) -/

/-- `ExternalVMOp` is a `uint8` in Go; we keep the raw numeric value so
unknown opcodes stay representable. -/
abbrev ExternalVMOp := Nat

def opFail : ExternalVMOp := 0
def opJump : ExternalVMOp := 1
def opRequireValid : ExternalVMOp := 2
def opRequireStateEq : ExternalVMOp := 3
def opSetState : ExternalVMOp := 4
def opIfRuneEq : ExternalVMOp := 5
def opIfRuneInRange : ExternalVMOp := 6
def opIfRuneClass : ExternalVMOp := 7
def opAdvance : ExternalVMOp := 8
def opMarkEnd : ExternalVMOp := 9
def opEmit : ExternalVMOp := 10

/-- The last valid rune class value, `ExternalVMRuneClassNewline`. -/
def runeClassNewline : Int := 4

/-- One VM instruction; the `A`, `B`, `Alt` operands are `int32` in Go.
The opcode field is spelled `Nat` (= `ExternalVMOp`) directly. -/
structure ExternalVMInstr where
  Op : Nat
  A : Int := 0
  B : Int := 0
  Alt : Int := 0
deriving DecidableEq, Repr

structure ExternalVMProgram where
  Code : List ExternalVMInstr
  MaxSteps : Int := 0
deriving DecidableEq, Repr

/-- `validateExternalVMTarget`: a control-flow target must lie in
`[0, codeLen)`. -/
def validateExternalVMTarget (target : Int) (codeLen : Nat) : Bool :=
  decide (0 ≤ target ∧ target < (codeLen : Int))

/-- The per-instruction part of `validateExternalVMProgram` (the body of the
`switch` over opcodes).  `some msg` is the first defect found.  The Go error
strings interpolate the instruction index; the abbreviated message text is
kept without it. -/
def validateExternalVMInstr (codeLen : Nat) (ins : ExternalVMInstr) : Option String :=
  if ins.Op = opFail ∨ ins.Op = opMarkEnd ∨ ins.Op = opAdvance ∨ ins.Op = opEmit then
    none
  else if ins.Op = opJump then
    if !validateExternalVMTarget ins.A codeLen then some "invalid A target" else none
  else if ins.Op = opRequireValid then
    if ins.A < 0 then some "invalid valid-symbol index"
    else if !validateExternalVMTarget ins.Alt codeLen then some "invalid Alt target" else none
  else if ins.Op = opRequireStateEq then
    if ins.A < 0 then some "invalid state value"
    else if !validateExternalVMTarget ins.Alt codeLen then some "invalid Alt target" else none
  else if ins.Op = opSetState then
    if ins.A < 0 then some "invalid state value" else none
  else if ins.Op = opIfRuneEq then
    if !validateExternalVMTarget ins.Alt codeLen then some "invalid Alt target" else none
  else if ins.Op = opIfRuneInRange then
    if ins.B < ins.A then some "invalid rune range"
    else if !validateExternalVMTarget ins.Alt codeLen then some "invalid Alt target" else none
  else if ins.Op = opIfRuneClass then
    if ins.A < 0 ∨ ins.A > runeClassNewline then some "invalid rune class"
    else if !validateExternalVMTarget ins.Alt codeLen then some "invalid Alt target" else none
  else some "unknown opcode"

/-- `validateExternalVMProgram`: empty-program and `MaxSteps` checks, then
the instruction loop (which returns the first defect found). -/
def validateExternalVMProgram (program : ExternalVMProgram) : Option String :=
  if program.Code.length = 0 then some "external vm: empty program"
  else if program.MaxSteps < 0 then some "external vm: max steps must be >= 0"
  else program.Code.findSome? (validateExternalVMInstr program.Code.length)

structure ExternalVMScanner where
  program : ExternalVMProgram
deriving DecidableEq, Repr

/-- `NewExternalVMScanner` validates and constructs a scanner. -/
def NewExternalVMScanner (program : ExternalVMProgram) : Except String ExternalVMScanner :=
  match validateExternalVMProgram program with
  | some msg => Except.error msg
  | none => Except.ok { program := program }

/-- `defaultExternalVMMaxSteps`. -/
def defaultExternalVMMaxSteps (codeLen : Nat) : Nat :=
  let steps := codeLen * 16
  if steps < 64 then 64 else steps

/-- The scanner payload: a single `uint32` state word.  The field is kept as
a `Nat`; writes go through `toUInt32` below. -/
structure externalVMPayload where
  State : Nat
deriving DecidableEq, Repr

/-- Reinterpretation of an `int32` operand as a `uint32`, as done by
`state = uint32(ins.A)` in the Go `Scan` loop. -/
def toUInt32Nat (a : Int) : Nat := (a % 4294967296).toNat

def putUint32LE (state : Nat) : List Nat :=
  [state % 256, state / 256 % 256, state / 65536 % 256, state / 16777216 % 256]

def readUint32LE (buf : List Nat) : Nat :=
  match buf with
  | b0 :: b1 :: b2 :: b3 :: _ => b0 + 256 * b1 + 65536 * b2 + 16777216 * b3
  | _ => 0

/-- `Serialize` writes the payload state into `buf` (little-endian) and
returns the number of bytes written.  The payload argument is `any` in Go;
`none` models a value that is not a `*externalVMPayload`. -/
def ExternalVMScanner.Serialize (_s : ExternalVMScanner)
    (payload : Option externalVMPayload) (buf : List Nat) : List Nat × Int :=
  if buf.length < 4 then (buf, 0)
  else
    let state := match payload with
      | some p => p.State
      | none => 0
    (putUint32LE state ++ buf.drop 4, 4)

/-- `Deserialize` restores the payload state from `buf`, resetting to zero
on underflow. -/
def ExternalVMScanner.Deserialize (_s : ExternalVMScanner)
    (payload : Option externalVMPayload) (buf : List Nat) : Option externalVMPayload :=
  match payload with
  | none => none
  | some _ =>
    if buf.length < 4 then some { State := 0 }
    else some { State := readUint32LE buf }

/-- Modelled from the spec: the `ExternalLexer` handle given to scanner
programs.  The VM only calls `Lookahead`, `Advance`, `MarkEnd` and
`SetResultSymbol`, so the lexer is modelled as a cursor over a list of
runes together with the marked end position and the emitted symbol. -/
structure ExternalLexer where
  input : List Int
  pos : Nat := 0
  markedEnd : Nat := 0
  resultSymbol : Option Int := none
deriving DecidableEq, Repr

def ExternalLexer.Lookahead (lx : ExternalLexer) : Int := lx.input.getD lx.pos 0

def ExternalLexer.Advance (lx : ExternalLexer) (_skip : Bool) : ExternalLexer :=
  { lx with pos := lx.pos + 1 }

def ExternalLexer.MarkEnd (lx : ExternalLexer) : ExternalLexer :=
  { lx with markedEnd := lx.pos }

def ExternalLexer.SetResultSymbol (lx : ExternalLexer) (sym : Int) : ExternalLexer :=
  { lx with resultSymbol := some sym }

/-- `matchesExternalVMRuneClass`; the Go function consults the `unicode`
package tables, which are modelled here by their ASCII core (whitespace,
digit, letter, word, newline) over integer code points.  No claim
depends on the class semantics, only on the branch structure. -/
def matchesExternalVMRuneClass (r : Int) (cls : Int) : Bool :=
  if cls = 0 then r = 32 ∨ r = 9 ∨ r = 10 ∨ r = 11 ∨ r = 12 ∨ r = 13
  else if cls = 1 then 48 ≤ r ∧ r ≤ 57
  else if cls = 2 then (65 ≤ r ∧ r ≤ 90) ∨ (97 ≤ r ∧ r ≤ 122)
  else if cls = 3 then
    r = 95 ∨ (65 ≤ r ∧ r ≤ 90) ∨ (97 ≤ r ∧ r ≤ 122) ∨ (48 ≤ r ∧ r ≤ 57)
  else if cls = 4 then r = 10
  else false

/-- What one loop iteration of `Scan` does at program counter `pc`. -/
inductive VMStep where
  | fault (state : Nat) (lexer : ExternalLexer)
  | halt (ok : Bool) (state : Nat) (lexer : ExternalLexer)
  | next (pc : Int) (state : Nat) (lexer : ExternalLexer)
deriving Repr

/-- One iteration of the `Scan` interpreter loop: the program-counter bounds
check followed by the dispatch `switch`.  `fault` is the out-of-bounds
early return (no instruction dispatched); `halt` covers `Fail`, `Emit` and
the unknown-opcode default. -/
def externalVMStep (code : List ExternalVMInstr) (validSymbols : List Bool)
    (pc : Int) (state : Nat) (lexer : ExternalLexer) : VMStep :=
  if h : 0 ≤ pc ∧ pc < (code.length : Int) then
    let ins := code.get ⟨pc.toNat, by omega⟩
    if ins.Op = opFail then .halt false state lexer
    else if ins.Op = opJump then .next ins.A state lexer
    else if ins.Op = opRequireValid then
      -- Go reads `validSymbols[int(ins.A)]` after an upper-bound check only;
      -- validated programs guarantee `ins.A ≥ 0`, which the model assumes
      -- by clamping with `toNat`.
      if ins.A < (validSymbols.length : Int) ∧ validSymbols.getD ins.A.toNat false then
        .next (pc + 1) state lexer
      else .next ins.Alt state lexer
    else if ins.Op = opRequireStateEq then
      if (state : Int) = ins.A then .next (pc + 1) state lexer
      else .next ins.Alt state lexer
    else if ins.Op = opSetState then .next (pc + 1) (toUInt32Nat ins.A) lexer
    else if ins.Op = opIfRuneEq then
      if lexer.Lookahead = ins.A then .next (pc + 1) state lexer
      else .next ins.Alt state lexer
    else if ins.Op = opIfRuneInRange then
      if ins.A ≤ lexer.Lookahead ∧ lexer.Lookahead ≤ ins.B then .next (pc + 1) state lexer
      else .next ins.Alt state lexer
    else if ins.Op = opIfRuneClass then
      if matchesExternalVMRuneClass lexer.Lookahead ins.A then .next (pc + 1) state lexer
      else .next ins.Alt state lexer
    else if ins.Op = opAdvance then .next (pc + 1) state (lexer.Advance (ins.A ≠ 0))
    else if ins.Op = opMarkEnd then .next (pc + 1) state lexer.MarkEnd
    else if ins.Op = opEmit then .halt true state (lexer.SetResultSymbol ins.A)
    else .halt false state lexer
  else .fault state lexer

/-- The result of running the interpreter loop: the Boolean scan result,
the number of VM instructions dispatched, and the final scanner state and
lexer. -/
structure ScanOutcome where
  ok : Bool
  steps : Nat
  state : Nat
  lexer : ExternalLexer
deriving Repr

/-- The `for steps := 0; steps < maxSteps; steps++` loop of `Scan`,
with the remaining iteration budget as fuel.  Exhausting the budget
returns `false` ("Step limit hit: treat as failed scan"). -/
def runExternalVM (code : List ExternalVMInstr) (validSymbols : List Bool) :
    Nat → Int → Nat → ExternalLexer → ScanOutcome
  | 0, _, state, lexer => ⟨false, 0, state, lexer⟩
  | fuel + 1, pc, state, lexer =>
    match externalVMStep code validSymbols pc state lexer with
    | .fault st lx => ⟨false, 0, st, lx⟩
    | .halt ok st lx => ⟨ok, 1, st, lx⟩
    | .next pc' st lx =>
      let r := runExternalVM code validSymbols fuel pc' st lx
      ⟨r.ok, r.steps + 1, r.state, r.lexer⟩

/-- `Scan`: reads the payload state, computes the step budget and runs the
loop; the deferred write of `state` back into the payload is the second
component of the result. -/
def ExternalVMScanner.Scan (s : ExternalVMScanner) (payload : Option externalVMPayload)
    (lexer : ExternalLexer) (validSymbols : List Bool) :
    ScanOutcome × Option externalVMPayload :=
  if s.program.Code.length = 0 then (⟨false, 0, 0, lexer⟩, payload)
  else
    let state0 := match payload with
      | some p => p.State
      | none => 0
    let maxSteps := if s.program.MaxSteps ≤ 0 then
        defaultExternalVMMaxSteps s.program.Code.length
      else s.program.MaxSteps.toNat
    let r := runExternalVM s.program.Code validSymbols maxSteps 0 state0 lexer
    (r, match payload with
        | some _ => some { State := r.state }
        | none => none)

/-- The defect list named by the claim, per instruction: unknown opcode, a
jump or alternate branch target outside `[0, codeLen)`, a rune range with
upper bound below lower bound, a negative symbol index or state value. -/
def instrClaimDefectFree (codeLen : Nat) (ins : ExternalVMInstr) : Prop :=
  ins.Op ≤ opEmit ∧
  (ins.Op = opJump → 0 ≤ ins.A ∧ ins.A < (codeLen : Int)) ∧
  ((ins.Op = opRequireValid ∨ ins.Op = opRequireStateEq ∨ ins.Op = opIfRuneEq ∨
      ins.Op = opIfRuneInRange ∨ ins.Op = opIfRuneClass) →
    0 ≤ ins.Alt ∧ ins.Alt < (codeLen : Int)) ∧
  (ins.Op = opIfRuneInRange → ins.A ≤ ins.B) ∧
  (ins.Op = opRequireValid → 0 ≤ ins.A) ∧
  ((ins.Op = opRequireStateEq ∨ ins.Op = opSetState) → 0 ≤ ins.A)

/-- The claim's defect list plus the rune-class constraint the code also
enforces (an `if_rune_class` operand must name a known class). -/
def instrDefectFree (codeLen : Nat) (ins : ExternalVMInstr) : Prop :=
  instrClaimDefectFree codeLen ins ∧
  (ins.Op = opIfRuneClass → 0 ≤ ins.A ∧ ins.A ≤ runeClassNewline)

/-! ## Node arena (`src/arena.go`) -/

abbrev FieldID := Nat
abbrev StateID := Nat
abbrev Symbol := Nat

def incrementalChildSliceCap : Nat := 2 * 1024
def fullChildSliceCap : Nat := 32 * 1024
def incrementalFieldSliceCap : Nat := 2 * 1024
def fullFieldSliceCap : Nat := 32 * 1024

inductive arenaClass where
  | incremental
  | full
deriving DecidableEq, Repr

/-- Modelled from the spec: the concrete-tree `Node` (spec section 3),
whose Go definition is outside the excerpted sources.  Only the fields the
verified functions read are modelled: `symbol`, `parse_state`, the byte
span, the `dirty` and `has_error` flags, and the ordered child list.
Points, naming flags and field ids do not influence the claims. -/
inductive Node where
  | mk (symbol : Symbol) (parseState : StateID) (startByte : Nat) (endByte : Nat)
      (dirty : Bool) (hasError : Bool) (children : List Node)

def Node.symbol : Node → Symbol
  | .mk s _ _ _ _ _ _ => s

def Node.parseState : Node → StateID
  | .mk _ p _ _ _ _ _ => p

def Node.startByte : Node → Nat
  | .mk _ _ a _ _ _ _ => a

def Node.endByte : Node → Nat
  | .mk _ _ _ e _ _ _ => e

def Node.dirty : Node → Bool
  | .mk _ _ _ _ d _ _ => d

def Node.hasError : Node → Bool
  | .mk _ _ _ _ _ h _ => h

def Node.children : Node → List Node
  | .mk _ _ _ _ _ _ c => c

/-- `Node.ChildCount()`. -/
def Node.childCount (n : Node) : Nat := n.children.length

def Node.withDirty (b : Bool) : Node → Node
  | .mk s p a e _ h c => .mk s p a e b h c

/-- The zero `Node{}` value. -/
def zeroNode : Node := .mk 0 0 0 0 false false []

structure childSliceSlab where
  data : List (Option Nat)
  used : Nat
deriving DecidableEq, Repr

structure fieldSliceSlab where
  data : List FieldID
  used : Nat
deriving DecidableEq, Repr

/-- `nodeArena`; the child-pointer slab entries are modelled as opaque
optional ids (`none` is the nil pointer). -/
structure nodeArena where
  cls : arenaClass
  nodes : List Node
  used : Nat
  refs : Int
  childSlabs : List childSliceSlab
  fieldSlabs : List fieldSliceSlab
  childSlabCursor : Int
  fieldSlabCursor : Int

def defaultChildSliceCap : arenaClass → Nat
  | .incremental => incrementalChildSliceCap
  | .full => fullChildSliceCap

def defaultFieldSliceCap : arenaClass → Nat
  | .incremental => incrementalFieldSliceCap
  | .full => fullFieldSliceCap

/-- Overwrite the first `k` entries of `l` with `z` (the `for i := 0;
i < used; i++` zeroing loops of `reset`). -/
def zeroPrefix {α : Type} (z : α) (k : Nat) (l : List α) : List α :=
  (l.take k).map (fun _ => z) ++ l.drop k

def childSliceSlab.resetSlab (s : childSliceSlab) : childSliceSlab :=
  { data := zeroPrefix none s.used s.data, used := 0 }

/-- `nodeArena.reset`: zero the used node entries and child-pointer
entries, clear all used counts and both cursors.  Field-slab data is not
zeroed (the Go code only clears `used`). -/
def nodeArena.reset (a : nodeArena) : nodeArena :=
  { a with
    nodes := zeroPrefix zeroNode a.used a.nodes
    used := 0
    childSlabs := a.childSlabs.map childSliceSlab.resetSlab
    fieldSlabs := a.fieldSlabs.map (fun s => { s with used := 0 })
    childSlabCursor := 0
    fieldSlabCursor := 0 }

/-- `acquireNodeArena` takes an arena out of the class pool (or builds a
fresh one); the pool is modelled by passing in the arena that `Get`
returned.  The reference count is stored as 1. -/
def acquireNodeArena (a : nodeArena) : nodeArena := { a with refs := 1 }

def nodeArena.Retain (a : nodeArena) : nodeArena := { a with refs := a.refs + 1 }

/-- `nodeArena.Release`: decrement the reference count; on reaching zero,
reset and hand the arena back to its class pool.  The Boolean records
whether the arena was returned to the pool. -/
def nodeArena.Release (a : nodeArena) : nodeArena × Bool :=
  let r := a.refs - 1
  if r ≠ 0 then ({ a with refs := r }, false)
  else (nodeArena.reset { a with refs := r }, true)

/-- Where an allocated node lives: a cell of the arena's node slab, or a
fresh heap node when the receiver is nil or the slab is exhausted. -/
inductive NodeRef where
  | slab (idx : Nat)
  | fresh
deriving DecidableEq, Repr

/-- `nodeArena.allocNode` with a possibly-nil receiver.  Returns the
updated receiver, where the node lives, and the value of the returned
node (always freshly zeroed, `*n = Node{}`). -/
def allocNode (a : Option nodeArena) : Option nodeArena × NodeRef × Node :=
  match a with
  | none => (none, .fresh, zeroNode)
  | some ar =>
    if ar.used < ar.nodes.length then
      (some { ar with nodes := ar.nodes.set ar.used zeroNode, used := ar.used + 1 },
       .slab ar.used, zeroNode)
    else (some ar, .fresh, zeroNode)

inductive SliceFamily where
  | childPtr
  | fieldId
deriving DecidableEq, Repr

/-- A slice handed out by the arena, described by the slab family, the
slab index, and the `[start, start+len)` region of that slab's backing
array. -/
structure SliceRef where
  family : SliceFamily
  slabIdx : Nat
  start : Nat
  len : Nat
deriving DecidableEq, Repr

/-- The `for i := a.childSlabCursor; ; i++` search loop of
`allocNodeSlice`: `pre` is the already-searched prefix of the slab list
(the Go loop keeps an index; `pre.length` plays its role), `rest` the
slabs from the cursor on.  When no slab fits, a new one of capacity
`max default n` is appended and the region starts at 0. -/
def childAllocLoop (cls : arenaClass) (n : Nat) :
    List childSliceSlab → List childSliceSlab → List childSliceSlab × Nat × Nat
  | pre, [] =>
    let capacity := max (defaultChildSliceCap cls) n
    (pre ++ [{ data := List.replicate capacity none, used := n }], pre.length, 0)
  | pre, slab :: rest =>
    if slab.data.length - slab.used < n then
      childAllocLoop cls n (pre ++ [slab]) rest
    else
      (pre ++ ({ slab with used := slab.used + n } :: rest), pre.length, slab.used)

/-- Overwrite `l[start, start+n)` with zeros (the `clear(out)` call of
`allocFieldIDSlice`). -/
def zeroRange (start n : Nat) (l : List Nat) : List Nat :=
  l.take start ++ ((l.drop start).take n).map (fun _ => 0) ++ l.drop (start + n)

/-- The search loop of `allocFieldIDSlice`; identical to `childAllocLoop`
except that the returned region is zero-filled. -/
def fieldAllocLoop (cls : arenaClass) (n : Nat) :
    List fieldSliceSlab → List fieldSliceSlab → List fieldSliceSlab × Nat × Nat
  | pre, [] =>
    let capacity := max (defaultFieldSliceCap cls) n
    (pre ++ [{ data := List.replicate capacity 0, used := n }], pre.length, 0)
  | pre, slab :: rest =>
    if slab.data.length - slab.used < n then
      fieldAllocLoop cls n (pre ++ [slab]) rest
    else
      (pre ++ ({ data := zeroRange slab.used n slab.data,
                 used := slab.used + n } :: rest), pre.length, slab.used)

/-- `nodeArena.allocNodeSlice`.  A request of size 0 returns `nil` (Go
also returns `nil` for negative sizes, which `Nat` rules out). -/
def nodeArena.allocNodeSlice (a : nodeArena) (n : Nat) : nodeArena × Option SliceRef :=
  if n = 0 then (a, none)
  else
    let slabs0 := if a.childSlabs.isEmpty then
        [{ data := List.replicate (defaultChildSliceCap a.cls) none, used := 0 }]
      else a.childSlabs
    let cursor := if a.childSlabCursor < 0 ∨ (slabs0.length : Int) ≤ a.childSlabCursor then 0
      else a.childSlabCursor.toNat
    let res := childAllocLoop a.cls n (slabs0.take cursor) (slabs0.drop cursor)
    ({ a with childSlabs := res.1, childSlabCursor := (res.2.1 : Int) },
     some { family := .childPtr, slabIdx := res.2.1, start := res.2.2, len := n })

/-- `nodeArena.allocFieldIDSlice`. -/
def nodeArena.allocFieldIDSlice (a : nodeArena) (n : Nat) : nodeArena × Option SliceRef :=
  if n = 0 then (a, none)
  else
    let slabs0 := if a.fieldSlabs.isEmpty then
        [{ data := List.replicate (defaultFieldSliceCap a.cls) 0, used := 0 }]
      else a.fieldSlabs
    let cursor := if a.fieldSlabCursor < 0 ∨ (slabs0.length : Int) ≤ a.fieldSlabCursor then 0
      else a.fieldSlabCursor.toNat
    let res := fieldAllocLoop a.cls n (slabs0.take cursor) (slabs0.drop cursor)
    ({ a with fieldSlabs := res.1, fieldSlabCursor := (res.2.1 : Int) },
     some { family := .fieldId, slabIdx := res.2.1, start := res.2.2, len := n })

/-- One slice request against an arena. -/
inductive AllocReq where
  | nodeSlice (n : Nat)
  | fieldSlice (n : Nat)
deriving DecidableEq, Repr

def allocOne (a : nodeArena) : AllocReq → nodeArena × Option SliceRef
  | .nodeSlice n => a.allocNodeSlice n
  | .fieldSlice n => a.allocFieldIDSlice n

/-- A sequence of slice allocations between resets. -/
def allocSeq : nodeArena → List AllocReq → nodeArena × List (Option SliceRef)
  | a, [] => (a, [])
  | a, r :: rs =>
    let p := allocOne a r
    let q := allocSeq p.1 rs
    (q.1, p.2 :: q.2)

/-- Well-formedness of an arena: used counts never exceed backing-array
lengths (Go would panic otherwise when slicing). -/
def nodeArena.WF (a : nodeArena) : Prop :=
  a.used ≤ a.nodes.length ∧
  (∀ s ∈ a.childSlabs, s.used ≤ s.data.length) ∧
  (∀ s ∈ a.fieldSlabs, s.used ≤ s.data.length)

/-- A slice region that has been handed out by the arena: it lies inside
the used part of its slab. -/
def settledIn (a : nodeArena) (r : SliceRef) : Prop :=
  match r.family with
  | .childPtr => r.slabIdx < a.childSlabs.length ∧
      r.start + r.len ≤ (a.childSlabs.getD r.slabIdx ⟨[], 0⟩).used ∧
      (a.childSlabs.getD r.slabIdx ⟨[], 0⟩).used ≤ (a.childSlabs.getD r.slabIdx ⟨[], 0⟩).data.length
  | .fieldId => r.slabIdx < a.fieldSlabs.length ∧
      r.start + r.len ≤ (a.fieldSlabs.getD r.slabIdx ⟨[], 0⟩).used ∧
      (a.fieldSlabs.getD r.slabIdx ⟨[], 0⟩).used ≤ (a.fieldSlabs.getD r.slabIdx ⟨[], 0⟩).data.length

/-- Two slice regions do not overlap: different slab family, different
slab, or disjoint index ranges. -/
def SliceRef.Disjoint (r1 r2 : SliceRef) : Prop :=
  r1.family ≠ r2.family ∨ r1.slabIdx ≠ r2.slabIdx ∨
  r1.start + r1.len ≤ r2.start ∨ r2.start + r2.len ≤ r1.start

/-! ## Incremental reuse engine (`src/incremental.go`) -/

inductive ParseActionType where
  | shift
  | reduce
  | accept
  | recover
deriving DecidableEq, Repr

/-- Modelled from the spec: a parse-table action — shift to a state,
reduce, accept or recover — carrying the `extra` flag and a target state.
`reuseTargetState` reads only `type`, `state` and `extra`. -/
structure ParseAction where
  type : ParseActionType
  state : StateID
  extra : Bool
deriving DecidableEq, Repr

/-- Modelled from the spec: the action set stored in the parse table for
one `(state, symbol)` pair. -/
structure ActionEntry where
  Actions : List ParseAction
deriving DecidableEq, Repr

/-- Modelled from the spec: the parser's table lookups.  `lookupAction`
returns the action set for `(state, symbol)` or nothing; `lookupGoto`
returns the goto state for `(state, nonterminal)`, with 0 meaning "no
entry". -/
structure Parser where
  lookupAction : StateID → Symbol → Option ActionEntry
  lookupGoto : StateID → Symbol → StateID

/-- Modelled from the spec: a lexed token; `reuseTargetState` reads only
the symbol, and the cursor queries use the start byte. -/
structure Token where
  Sym : Symbol
  StartByte : Nat
  EndByte : Nat
deriving DecidableEq, Repr

/-- `Parser.reuseTargetState`: the graft admissibility check.  Go returns
`(StateID, bool)`; the `false` case becomes `none`. -/
def Parser.reuseTargetState (p : Parser) (state : StateID) (n : Node)
    (lookahead : Token) : Option StateID :=
  if n.childCount = 0 then
    -- Leaf reuse must match the current lookahead token symbol.
    if n.symbol ≠ lookahead.Sym then none
    else
      match p.lookupAction state n.symbol with
      | none => none
      | some action =>
        match action.Actions with
        | [] => none
        | a0 :: rest =>
          -- Extra-token shifts keep the parser state unchanged.
          if a0.type = ParseActionType.shift ∧ a0.extra = true then some state
          else
            match (a0 :: rest).find?
                (fun act => decide (act.type = ParseActionType.shift)) with
            | some act => some act.state
            | none => none
  else
    let gotoState := p.lookupGoto state n.symbol
    if gotoState = 0 then none
    else if gotoState ≠ n.parseState then none
    else some gotoState

structure Point where
  row : Nat
  column : Nat
deriving DecidableEq, Repr

structure InputEdit where
  StartByte : Nat
  OldEndByte : Nat
  NewEndByte : Nat
  StartPoint : Point
  OldEndPoint : Point
  NewEndPoint : Point
deriving DecidableEq, Repr

/-- Modelled from the spec: the `Tree` fields read by `reuseCursor.reset`:
the root node, the captured source bytes, and the pending edits. -/
structure Tree where
  root : Node
  source : List Nat
  edits : List InputEdit

/-- The cursor fields set up by `reuseCursor.reset` that the walk reads
(the traversal stack and candidate cache are handled by the recursion). -/
structure ReuseEnv where
  sourceLen : Nat
  oldSource : List Nat
  newSource : List Nat
  minEditAt : Nat
  hasEdits : Bool
deriving DecidableEq, Repr

/-- `nodeBytesEqual`: slice comparison of `[startB, endB)` in both
sources, guarded by the bounds checks of the Go function. -/
def nodeBytesEqual (startB endB : Nat) (old new : List Nat) : Bool :=
  if endB < startB then false
  else if decide (old.length < endB) || decide (new.length < endB) then false
  else decide ((old.drop startB).take (endB - startB) =
    (new.drop startB).take (endB - startB))

/-- The minimum `StartByte` over the pending edits (`reuseCursor.reset`);
0 when there are none. -/
def minEditStart : List InputEdit → Nat
  | [] => 0
  | e :: rest =>
    rest.foldl (fun m x => if x.StartByte < m then x.StartByte else m) e.StartByte

/-- `reuseCursor.reset` over an old tree and the edited source. -/
def reuseCursorEnv (oldTree : Tree) (source : List Nat) : ReuseEnv :=
  { sourceLen := source.length
    oldSource := oldTree.source
    newSource := source
    minEditAt := minEditStart oldTree.edits
    hasEdits := !oldTree.edits.isEmpty }

/-- The node's dirtiness after the undo-edit check of
`reuseCursor.advance`: `dirty` survives only when the byte slices differ. -/
def dirtyAfterUndo (env : ReuseEnv) (n : Node) : Bool :=
  n.dirty && !(nodeBytesEqual n.startByte n.endByte env.oldSource env.newSource)

mutual

/-- The sequence of nodes yielded by repeated `reuseCursor.advance` calls
starting from a frame `(node, underDirty)`: the explicit traversal stack
of the Go code is the standard pre-order DFS stack, so the walk is
written as the structural pre-order it implements.  A yielded node
carries `dirty = false`, exactly as in Go (a node passes the yield checks
only when its flag is clear after the undo-edit check); descendants of a
yielded node are the original ones, since the walk never rearranges
children. -/
def reuseYields (env : ReuseEnv) (underDirty : Bool) : Node → List Node
  | .mk sym ps sb eb dirty hasErr children =>
    let dh := dirty && !(nodeBytesEqual sb eb env.oldSource env.newSource)
    let skip := (underDirty && env.hasEdits && decide (eb ≤ env.minEditAt)) ||
      hasErr || decide (eb ≤ sb) || decide (env.sourceLen < eb) || dh
    (if skip then [] else [Node.mk sym ps sb eb false hasErr children]) ++
      reuseYieldsList env (underDirty || dh) children

/-- The walk over the children pushed (in reverse) onto the traversal
stack: leftmost child first, all under the same `underDirty` flag. -/
def reuseYieldsList (env : ReuseEnv) (underDirty : Bool) : List Node → List Node
  | [] => []
  | c :: cs => reuseYields env underDirty c ++ reuseYieldsList env underDirty cs

end

/-- `OccursUnder root anc m`: node `m` occurs in the tree `root` with the
strict ancestors `anc` listed from the root downwards. -/
inductive OccursUnder : Node → List Node → Node → Prop where
  | here (n : Node) : OccursUnder n [] n
  | child {p c m : Node} {anc : List Node} :
      c ∈ p.children → OccursUnder c anc m → OccursUnder p (p :: anc) m

/-- Whether the walk reaches a node with ancestors `anc` under a dirty
ancestor, starting from outer flag `ud`. -/
def ancUnder (env : ReuseEnv) (ud : Bool) (anc : List Node) : Bool :=
  ud || anc.any (fun a => dirtyAfterUndo env a)

/-- The amended yield condition: the node is skipped when it sits under a
dirty ancestor while the node itself ends at or before the earliest edit
(and edits exist); it must be clean after the undo check, error free,
non-empty, and must end within the new source. -/
def yieldCond (env : ReuseEnv) (under : Bool) (m : Node) : Prop :=
  ¬(under = true ∧ env.hasEdits = true ∧ m.endByte ≤ env.minEditAt) ∧
  m.hasError = false ∧
  m.startByte < m.endByte ∧
  m.endByte ≤ env.sourceLen ∧
  dirtyAfterUndo env m = false

/-! ## GLR stack merge (`src/glr.go`) -/

structure stackEntry where
  state : StateID
  node : Option Nat
deriving DecidableEq, Repr

structure glrStack where
  entries : List stackEntry
  score : Int
  dead : Bool
  accepted : Bool
deriving DecidableEq, Repr

/-- `glrStack.top().state`; `top` indexes the last entry, which exists on
every stack the driver builds, so the partiality is made explicit with an
`Option`. -/
def glrStack.topState (s : glrStack) : Option StateID :=
  s.entries.getLast?.map (fun en => en.state)

/-- The inner linear search of the ≤64 regime of
`mergeStacksWithScratch`: find the first retained stack with the same top
state; replace it when the newcomer's score is strictly higher, else
append the newcomer at the end. -/
def mergeInto : List glrStack → glrStack → List glrStack
  | [], s => [s]
  | r :: rs, s =>
    if r.topState = s.topState then
      (if s.score > r.score then s else r) :: rs
    else r :: mergeInto rs s

/-- The ≤64 regime: fold the alive stacks through the linear search,
starting from the emptied scratch result buffer. -/
def mergeLinear (alive : List glrStack) : List glrStack :=
  alive.foldl mergeInto []

/-- The `scratch.best` hash map of the >64 regime, modelled as an
association list of `(top state, index into result)` pairs in insertion
order (the Go map has unique keys, as does this list by construction). -/
def lookupBest (best : List (Option StateID × Nat)) (k : Option StateID) : Option Nat :=
  (best.find? (fun q => decide (q.1 = k))).map (fun q => q.2)

/-- One iteration of the >64 regime: on a hit, overwrite the indexed slot
when the newcomer's score is strictly higher (writing back the old value
otherwise, which leaves the buffer unchanged); on a miss, record the new
index and append. -/
def mergeHashedStep (acc : List (Option StateID × Nat) × List glrStack)
    (s : glrStack) : List (Option StateID × Nat) × List glrStack :=
  match lookupBest acc.1 s.topState with
  | some idx =>
    let cur := acc.2.getD idx s
    (acc.1, acc.2.set idx (if s.score > cur.score then s else cur))
  | none => (acc.1 ++ [(s.topState, acc.2.length)], acc.2 ++ [s])

/-- The >64 regime. -/
def mergeHashed (alive : List glrStack) : List glrStack :=
  (alive.foldl mergeHashedStep ([], [])).2

/-- `mergeStacksWithScratch`: drop dead stacks, return the survivors
unchanged when at most one remains, and otherwise merge by top state in
one of the two sizing regimes. -/
def mergeStacksWithScratch (sts : List glrStack) : List glrStack :=
  let alive := sts.filter (fun s => !s.dead)
  if alive.length ≤ 1 then alive
  else if alive.length ≤ 64 then mergeLinear alive
  else mergeHashed alive

/-- `mergeStacks` delegates to the scratch variant with fresh scratch. -/
def mergeStacks (sts : List glrStack) : List glrStack :=
  mergeStacksWithScratch sts

/-- Modelled from the spec's words, for the refinement comparison: the
first stack of a list attaining the maximal score. -/
def pickFirstMax (l : List glrStack) : Option glrStack :=
  l.foldl (fun acc s => match acc with
    | none => some s
    | some b => if s.score > b.score then some s else some b) none

/-- Modelled from the spec's words: the top states in first-seen order. -/
def firstSeenKeys (l : List glrStack) : List (Option StateID) :=
  l.foldl (fun ks s => if s.topState ∈ ks then ks else ks ++ [s.topState]) []

/-- Modelled from the spec's words: remove dead stacks, group the
survivors by top state keeping groups in first-seen order, and retain
from each group the first stack attaining the maximal score. -/
def mergeSpec (sts : List glrStack) : List glrStack :=
  let alive := sts.filter (fun s => !s.dead)
  (firstSeenKeys alive).filterMap
    (fun k => pickFirstMax (alive.filter (fun s => decide (s.topState = k))))

/-- The association list the hashed regime's map holds after retaining
the stacks `R`, starting at index `i`: each retained stack's key paired
with its position. -/
def bestOf : List glrStack → Nat → List (Option StateID × Nat)
  | [], _ => []
  | r :: rs, i => (r.topState, i) :: bestOf rs (i + 1)

/-! ## Theorems about the external scanner VM -/

theorem runExternalVM_steps_le (code : List ExternalVMInstr) (valid : List Bool) :
    ∀ fuel pc state lexer, (runExternalVM code valid fuel pc state lexer).steps ≤ fuel := by
  intro fuel
  induction fuel with
  | zero => intro pc state lexer; simp [runExternalVM]
  | succ n ih =>
    intro pc state lexer
    unfold runExternalVM
    cases h : externalVMStep code valid pc state lexer with
    | fault st lx => simp
    | halt ok st lx => simp
    | next pc' st lx =>
      simpa using ih pc' st lx

theorem defaultExternalVMMaxSteps_eq (codeLen : Nat) :
    defaultExternalVMMaxSteps codeLen = max 64 (16 * codeLen) := by
  simp only [defaultExternalVMMaxSteps]
  split <;> omega

/-- **C4.** For any valid scanner program, a single call to `Scan`
dispatches at most `max_steps` VM instructions, where `max_steps` is the
program's `MaxSteps` when positive and `max 64 (16 * code length)`
otherwise; and an exhausted step budget makes the interpreter loop return
`false` without an emit. -/
theorem scan_step_bounded (prog : ExternalVMProgram)
    (hv : validateExternalVMProgram prog = none)
    (payload : Option externalVMPayload) (lexer : ExternalLexer)
    (validSymbols : List Bool) :
    ((ExternalVMScanner.Scan ⟨prog⟩ payload lexer validSymbols).1).steps ≤
      (if 0 < prog.MaxSteps then prog.MaxSteps.toNat
       else max 64 (16 * prog.Code.length)) ∧
    (∀ pc state lx,
      runExternalVM prog.Code validSymbols 0 pc state lx = ⟨false, 0, state, lx⟩) := by
  have hne : prog.Code.length ≠ 0 := by
    intro h0
    rw [validateExternalVMProgram, if_pos h0] at hv
    exact Option.noConfusion hv
  constructor
  · have hBC : (if prog.MaxSteps ≤ 0 then defaultExternalVMMaxSteps prog.Code.length
        else prog.MaxSteps.toNat) =
      (if 0 < prog.MaxSteps then prog.MaxSteps.toNat
       else max 64 (16 * prog.Code.length)) := by
      rw [defaultExternalVMMaxSteps_eq]
      rcases le_or_lt prog.MaxSteps 0 with h | h
      · rw [if_pos h, if_neg (by omega)]
      · rw [if_neg (by omega), if_pos h]
    rw [← hBC]
    unfold ExternalVMScanner.Scan
    rw [if_neg hne]
    exact runExternalVM_steps_le _ _ _ _ _ _
  · intro pc state lx
    rfl

theorem list_findSome?_eq_none_iff {α β : Type} (f : α → Option β) :
    ∀ l : List α, l.findSome? f = none ↔ ∀ x ∈ l, f x = none := by
  intro l
  induction l with
  | nil => simp [List.findSome?]
  | cons a as ih =>
    rw [List.findSome?]
    cases h : f a with
    | some b => simp [h]
    | none => simp [h, ih]

theorem validateExternalVMInstr_none_iff (codeLen : Nat) (ins : ExternalVMInstr) :
    validateExternalVMInstr codeLen ins = none ↔ instrDefectFree codeLen ins := by
  obtain ⟨op, A, B, Alt⟩ := ins
  unfold validateExternalVMInstr instrDefectFree instrClaimDefectFree validateExternalVMTarget
  simp only [opFail, opJump, opRequireValid, opRequireStateEq, opSetState, opIfRuneEq,
    opIfRuneInRange, opIfRuneClass, opAdvance, opMarkEnd, opEmit, runeClassNewline]
  by_cases h0 : op = 0
  · subst h0; simp
  by_cases h9 : op = 9
  · subst h9; simp
  by_cases h8 : op = 8
  · subst h8; simp
  by_cases h10 : op = 10
  · subst h10; simp
  by_cases h1 : op = 1
  · subst h1
    by_cases hP : 0 ≤ A ∧ A < (codeLen : Int) <;> simp [hP] <;> omega
  by_cases h2 : op = 2
  · subst h2
    by_cases hA : A < 0
    · by_cases hP : 0 ≤ Alt ∧ Alt < (codeLen : Int) <;> simp [hA, hP] <;> omega
    · by_cases hP : 0 ≤ Alt ∧ Alt < (codeLen : Int) <;> simp [hA, hP] <;> omega
  by_cases h3 : op = 3
  · subst h3
    by_cases hA : A < 0
    · by_cases hP : 0 ≤ Alt ∧ Alt < (codeLen : Int) <;> simp [hA, hP] <;> omega
    · by_cases hP : 0 ≤ Alt ∧ Alt < (codeLen : Int) <;> simp [hA, hP] <;> omega
  by_cases h4 : op = 4
  · subst h4
    by_cases hA : A < 0 <;> simp [hA] <;> omega
  by_cases h5 : op = 5
  · subst h5
    by_cases hP : 0 ≤ Alt ∧ Alt < (codeLen : Int) <;> simp [hP] <;> omega
  by_cases h6 : op = 6
  · subst h6
    by_cases hB : B < A
    · by_cases hP : 0 ≤ Alt ∧ Alt < (codeLen : Int) <;> simp [hB, hP] <;> omega
    · by_cases hP : 0 ≤ Alt ∧ Alt < (codeLen : Int) <;> simp [hB, hP] <;> omega
  by_cases h7 : op = 7
  · subst h7
    by_cases hC : A < 0 ∨ A > 4
    · by_cases hP : 0 ≤ Alt ∧ Alt < (codeLen : Int) <;> simp [hC, hP] <;> omega
    · by_cases hP : 0 ≤ Alt ∧ Alt < (codeLen : Int) <;> simp [hC, hP] <;> omega
  · simp [h0, h1, h2, h3, h4, h5, h6, h7, h8, h9, h10]
    omega

/-- **C5 (amended).** `NewExternalVMScanner` succeeds exactly when the
program is non-empty, `MaxSteps` is non-negative, and every instruction is
free of the claim's defects (unknown opcode, out-of-range jump or
alternate target, inverted rune range, negative symbol index or state
value) and additionally carries an in-range rune class operand when it is
an `if_rune_class` instruction. -/
theorem newExternalVMScanner_ok_iff (prog : ExternalVMProgram) :
    (∃ s, NewExternalVMScanner prog = Except.ok s) ↔
      (prog.Code ≠ [] ∧ 0 ≤ prog.MaxSteps ∧
        ∀ ins ∈ prog.Code, instrDefectFree prog.Code.length ins) := by
  unfold NewExternalVMScanner
  constructor
  · rintro ⟨s, hs⟩
    cases h : validateExternalVMProgram prog with
    | some msg => rw [h] at hs; exact Except.noConfusion hs
    | none =>
      unfold validateExternalVMProgram at h
      by_cases h0 : prog.Code.length = 0
      · rw [if_pos h0] at h; exact Option.noConfusion h
      · rw [if_neg h0] at h
        by_cases h1 : prog.MaxSteps < 0
        · rw [if_pos h1] at h; exact Option.noConfusion h
        · rw [if_neg h1] at h
          refine ⟨by simpa using h0, by omega, ?_⟩
          intro ins hins
          rw [← validateExternalVMInstr_none_iff]
          exact (list_findSome?_eq_none_iff _ _).1 h ins hins
  · rintro ⟨h0, h1, h2⟩
    have hv : validateExternalVMProgram prog = none := by
      unfold validateExternalVMProgram
      rw [if_neg (by simpa using h0), if_neg (by omega)]
      exact (list_findSome?_eq_none_iff _ _).2
        (fun ins hins => (validateExternalVMInstr_none_iff _ _).2 (h2 ins hins))
    rw [hv]
    exact ⟨_, rfl⟩

/-- **C5, counterexample to the claim as stated.** The one-instruction
program `if_rune_class 7` is free of every defect the claim lists, is
non-empty and has `MaxSteps = 0 ≥ 0`, yet construction is rejected: the
code also validates that the rune-class operand names a known class. -/
theorem newExternalVMScanner_claim_counterexample :
    instrClaimDefectFree 1 ⟨opIfRuneClass, 7, 0, 0⟩ ∧
    ([(⟨opIfRuneClass, 7, 0, 0⟩ : ExternalVMInstr)] ≠ []) ∧
    ((0 : Int) ≤ 0) ∧
    NewExternalVMScanner ⟨[⟨opIfRuneClass, 7, 0, 0⟩], 0⟩ =
      Except.error "invalid rune class" := by
  refine ⟨?_, by simp, by omega, by rfl⟩
  unfold instrClaimDefectFree
  decide

theorem scan_step_bounded_witness :
    validateExternalVMProgram ⟨[⟨opEmit, 0, 0, 0⟩], 0⟩ = none ∧
    ((ExternalVMScanner.Scan ⟨⟨[⟨opEmit, 0, 0, 0⟩], 0⟩⟩ none ⟨[], 0, 0, none⟩ []).1).steps ≤
      (if 0 < (⟨[⟨opEmit, 0, 0, 0⟩], 0⟩ : ExternalVMProgram).MaxSteps then
        (⟨[⟨opEmit, 0, 0, 0⟩], 0⟩ : ExternalVMProgram).MaxSteps.toNat
       else max 64 (16 * (⟨[⟨opEmit, 0, 0, 0⟩], 0⟩ : ExternalVMProgram).Code.length)) :=
  ⟨by decide,
   (scan_step_bounded ⟨[⟨opEmit, 0, 0, 0⟩], 0⟩ (by decide) none ⟨[], 0, 0, none⟩ []).1⟩

/-- **C7.** Serializing a payload state `st` into a buffer of at least 4
bytes writes exactly the 4-byte little-endian encoding of `st` (leaving
the remainder untouched) and returns 4; deserializing that buffer into a
fresh payload restores `st`; deserializing from a buffer shorter than 4
bytes resets the payload state to zero. -/
theorem serialize_deserialize_roundtrip (s : ExternalVMScanner) (st : Nat)
    (buf : List Nat) (hst : st < 4294967296) (hbuf : 4 ≤ buf.length) :
    s.Serialize (some ⟨st⟩) buf =
      ([st % 256, st / 256 % 256, st / 65536 % 256, st / 16777216 % 256] ++
        buf.drop 4, 4) ∧
    (putUint32LE st).length = 4 ∧
    s.Deserialize (some ⟨0⟩) (putUint32LE st ++ buf.drop 4) = some ⟨st⟩ ∧
    (∀ (buf2 : List Nat) (p : externalVMPayload), buf2.length < 4 →
      s.Deserialize (some p) buf2 = some ⟨0⟩) := by
  refine ⟨?_, rfl, ?_, ?_⟩
  · rw [ExternalVMScanner.Serialize, if_neg (by omega)]
    rfl
  · rw [ExternalVMScanner.Deserialize]
    rw [if_neg (by simp [putUint32LE])]
    have : readUint32LE (putUint32LE st ++ buf.drop 4) = st := by
      simp only [putUint32LE, List.cons_append, List.nil_append, readUint32LE]
      omega
    rw [this]
  · intro buf2 p h2
    rw [ExternalVMScanner.Deserialize, if_pos h2]

theorem serialize_deserialize_roundtrip_witness :
    (305419896 < 4294967296) ∧
    ExternalVMScanner.Deserialize ⟨⟨[⟨opEmit, 0, 0, 0⟩], 0⟩⟩ (some ⟨0⟩)
        (putUint32LE 305419896 ++ [9, 9, 9, 9, 9].drop 4) = some ⟨305419896⟩ :=
  ⟨by decide,
   (serialize_deserialize_roundtrip ⟨⟨[⟨opEmit, 0, 0, 0⟩], 0⟩⟩ 305419896
     [9, 9, 9, 9, 9] (by decide) (by decide)).2.2.1⟩

/-! ## Theorems about the node arena -/

theorem zeroPrefix_length {α : Type} (z : α) (k : Nat) (l : List α) :
    (zeroPrefix z k l).length = l.length := by
  simp [zeroPrefix]
  omega

theorem zeroPrefix_getD_of_lt {α : Type} (z d : α) (k : Nat) (l : List α) (i : Nat)
    (h : i < k) (hlen : i < l.length) :
    (zeroPrefix z k l).getD i d = z := by
  have h1 : i < ((l.take k).map (fun _ => z)).length := by
    simp
    omega
  rw [zeroPrefix, List.getD_append _ _ _ _ h1, List.getD_eq_getElem _ _ h1]
  simp

theorem zeroPrefix_getD {α : Type} (z : α) (k : Nat) (l : List α) (i : Nat) (h : i < k) :
    (zeroPrefix z k l).getD i z = z := by
  rcases Nat.lt_or_ge i l.length with hi | hi
  · exact zeroPrefix_getD_of_lt z z k l i h hi
  · exact List.getD_eq_default _ _ (by rw [zeroPrefix_length]; omega)

/-- **C8.** The reference count is 1 immediately after acquire; `Retain`
adds exactly 1 and `Release` subtracts exactly 1; a `Release` that does
not reach zero changes nothing but the count; the `Release` that reaches
zero hands the arena back to its class pool after resetting it: used
counts cleared, node entries and child-pointer entries zeroed. -/
theorem arena_refcount (a : nodeArena) :
    (acquireNodeArena a).refs = 1 ∧
    (nodeArena.Retain a).refs = a.refs + 1 ∧
    (nodeArena.Release a).1.refs = a.refs - 1 ∧
    (a.refs - 1 ≠ 0 → nodeArena.Release a = ({ a with refs := a.refs - 1 }, false)) ∧
    (a.refs = 1 → a.WF →
      (nodeArena.Release a).2 = true ∧
      (nodeArena.Release a).1.cls = a.cls ∧
      (nodeArena.Release a).1.used = 0 ∧
      (∀ i, i < a.used → (nodeArena.Release a).1.nodes.getD i zeroNode = zeroNode) ∧
      (nodeArena.Release a).1.childSlabs.length = a.childSlabs.length ∧
      (∀ i, i < a.childSlabs.length →
        ((nodeArena.Release a).1.childSlabs.getD i ⟨[], 0⟩).used = 0 ∧
        ∀ j, j < (a.childSlabs.getD i ⟨[], 0⟩).used →
          ((nodeArena.Release a).1.childSlabs.getD i ⟨[], 0⟩).data.getD j (some 0) = none) ∧
      (∀ i, i < a.fieldSlabs.length →
        ((nodeArena.Release a).1.fieldSlabs.getD i ⟨[], 0⟩).used = 0)) := by
  refine ⟨rfl, rfl, ?_, ?_, ?_⟩
  · by_cases h : a.refs - 1 ≠ 0
    · simp [nodeArena.Release, if_pos h]
    · simp only [nodeArena.Release]
      rw [if_neg h]
      simp only [nodeArena.reset]
  · intro h
    simp [nodeArena.Release, if_pos h]
  · intro h1 hWF
    have h0 : ¬ a.refs - 1 ≠ 0 := by omega
    have hRel : nodeArena.Release a =
        (nodeArena.reset { a with refs := a.refs - 1 }, true) := by
      simp only [nodeArena.Release]
      rw [if_neg h0]
    rw [hRel]
    obtain ⟨hWn, hWc, hWf⟩ := hWF
    refine ⟨rfl, rfl, rfl, ?_, by simp [nodeArena.reset], ?_, ?_⟩
    · intro i hi
      simp only [nodeArena.reset]
      exact zeroPrefix_getD zeroNode a.used a.nodes i hi
    · intro i hi
      have hmap : ((nodeArena.reset { a with refs := a.refs - 1 }).childSlabs.getD i ⟨[], 0⟩)
          = childSliceSlab.resetSlab (a.childSlabs.getD i ⟨[], 0⟩) := by
        simp only [nodeArena.reset]
        rw [List.getD_eq_getElem _ _ (by simpa using hi), List.getElem_map,
          List.getD_eq_getElem _ _ hi]
      rw [hmap]
      refine ⟨rfl, ?_⟩
      intro j hj
      have hle : (a.childSlabs.getD i ⟨[], 0⟩).used ≤
          (a.childSlabs.getD i ⟨[], 0⟩).data.length := by
        apply hWc
        rw [List.getD_eq_getElem _ _ hi]
        exact List.getElem_mem _
      exact zeroPrefix_getD_of_lt none (some 0) _ _ j hj (by omega)
    · intro i hi
      simp only [nodeArena.reset]
      rw [List.getD_eq_getElem _ _ (by simpa using hi), List.getElem_map]

/-- **C10.** `allocNode` is total and always returns a node whose fields
are all zero-valued; with slab room the node comes from the slab and the
used count grows by exactly 1; with the slab exhausted, or a nil arena,
a fresh zero node is returned and the arena is unchanged. -/
theorem allocNode_spec (a : Option nodeArena) :
    (allocNode a).2.2 = zeroNode ∧
    (a = none → allocNode a = (none, .fresh, zeroNode)) ∧
    (∀ ar, a = some ar → ar.used < ar.nodes.length →
      allocNode a =
        (some { ar with
                  nodes := ar.nodes.set ar.used zeroNode,
                  used := ar.used + 1 },
         .slab ar.used, zeroNode)) ∧
    (∀ ar, a = some ar → ¬ ar.used < ar.nodes.length →
      allocNode a = (some ar, .fresh, zeroNode)) := by
  refine ⟨?_, ?_, ?_, ?_⟩
  · cases a with
    | none => rfl
    | some ar =>
      by_cases h : ar.used < ar.nodes.length
      · simp [allocNode, if_pos h]
      · simp [allocNode, if_neg h]
  · rintro rfl
    rfl
  · rintro ar rfl h
    simp [allocNode, if_pos h]
  · rintro ar rfl h
    simp [allocNode, if_neg h]

theorem arena_refcount_witness :
    nodeArena.Release ⟨arenaClass.incremental, [], 0, 2, [], [], 0, 0⟩ =
      (⟨arenaClass.incremental, [], 0, 2 - 1, [], [], 0, 0⟩, false) ∧
    (nodeArena.Release
      ⟨arenaClass.full, [zeroNode], 1, 1, [⟨[some 5], 1⟩], [⟨[7], 1⟩], 0, 0⟩).2 = true ∧
    ((nodeArena.Release
        ⟨arenaClass.full, [zeroNode], 1, 1, [⟨[some 5], 1⟩], [⟨[7], 1⟩], 0, 0⟩).1.childSlabs.getD
      0 ⟨[], 0⟩).data.getD 0 (some 0) = none :=
  ⟨(arena_refcount ⟨arenaClass.incremental, [], 0, 2, [], [], 0, 0⟩).2.2.2.1 (by decide),
   ((arena_refcount
      ⟨arenaClass.full, [zeroNode], 1, 1, [⟨[some 5], 1⟩], [⟨[7], 1⟩], 0, 0⟩).2.2.2.2 rfl
      ⟨by decide, by decide, by decide⟩).1,
   (((arena_refcount
      ⟨arenaClass.full, [zeroNode], 1, 1, [⟨[some 5], 1⟩], [⟨[7], 1⟩], 0, 0⟩).2.2.2.2 rfl
      ⟨by decide, by decide, by decide⟩).2.2.2.2.2.1 0 (by decide)).2 0 (by decide)⟩

theorem getD_append_self {α : Type} (l : List α) (x : α) (l' : List α) (d : α) :
    (l ++ x :: l').getD l.length d = x := by
  rw [List.getD_append_right _ _ _ _ (Nat.le_refl _)]
  simp

theorem getD_append_gt {α : Type} (l : List α) (x : α) (l' : List α) (d : α) (j : Nat)
    (h : l.length < j) : (l ++ x :: l').getD j d = l'.getD (j - l.length - 1) d := by
  rw [List.getD_append_right _ _ _ _ (by omega)]
  obtain ⟨m, hm⟩ : ∃ m, j - l.length = m + 1 := ⟨j - l.length - 1, by omega⟩
  rw [hm]
  simp [List.getD]

/-- Behaviour of the `allocNodeSlice` search loop: it keeps the slab list
well formed, hands out a region lying inside the (new) used part of the
chosen slab, never shrinks any pre-existing slab, and starts the new
region at or after the old used mark of the chosen slab. -/
theorem childAllocLoop_spec (cls : arenaClass) (n : Nat) (hn : 0 < n) :
    ∀ (rest pre : List childSliceSlab),
      (∀ s ∈ pre ++ rest, s.used ≤ s.data.length) →
      ((∀ s ∈ (childAllocLoop cls n pre rest).1, s.used ≤ s.data.length) ∧
       (childAllocLoop cls n pre rest).2.1 < (childAllocLoop cls n pre rest).1.length ∧
       (childAllocLoop cls n pre rest).2.2 + n ≤
         ((childAllocLoop cls n pre rest).1.getD (childAllocLoop cls n pre rest).2.1
           ⟨[], 0⟩).used ∧
       (pre ++ rest).length ≤ (childAllocLoop cls n pre rest).1.length ∧
       (∀ j, j < (pre ++ rest).length →
         ((childAllocLoop cls n pre rest).1.getD j ⟨[], 0⟩).data.length =
           ((pre ++ rest).getD j ⟨[], 0⟩).data.length ∧
         ((pre ++ rest).getD j ⟨[], 0⟩).used ≤
           ((childAllocLoop cls n pre rest).1.getD j ⟨[], 0⟩).used) ∧
       (∀ j, j < (pre ++ rest).length → j = (childAllocLoop cls n pre rest).2.1 →
         ((pre ++ rest).getD j ⟨[], 0⟩).used ≤ (childAllocLoop cls n pre rest).2.2)) := by
  intro rest
  induction rest with
  | nil =>
    intro pre hWF
    simp only [childAllocLoop, List.append_nil]
    refine ⟨?_, by simp, ?_, by simp, ?_, ?_⟩
    · intro s hs
      rcases List.mem_append.1 hs with hs | hs
      · exact hWF s (by simpa using hs)
      · rcases List.mem_singleton.1 hs with rfl
        simp
    · rw [getD_append_self]
      simp
    · intro j hj
      rw [List.getD_append _ _ _ _ hj]
      exact ⟨rfl, Nat.le_refl _⟩
    · intro j hj hj2
      omega
  | cons slab rest' ih =>
    intro pre hWF
    by_cases hfit : slab.data.length - slab.used < n
    · have hre : pre ++ slab :: rest' = (pre ++ [slab]) ++ rest' := by simp
      rw [childAllocLoop, if_pos hfit]
      rw [hre] at hWF ⊢
      exact ih (pre ++ [slab]) hWF
    · rw [childAllocLoop, if_neg hfit]
      have hslab : slab.used ≤ slab.data.length := hWF slab (by simp)
      refine ⟨?_, by simp, ?_, by simp, ?_, ?_⟩
      · intro s hs
        rcases List.mem_append.1 hs with hs | hs
        · exact hWF s (List.mem_append.2 (Or.inl hs))
        · rcases List.mem_cons.1 hs with rfl | hs
          · simp
            omega
          · exact hWF s (by simp [hs])
      · rw [getD_append_self]
      · intro j hj
        rcases Nat.lt_trichotomy j pre.length with hc | hc | hc
        · rw [List.getD_append _ _ _ _ hc, List.getD_append _ _ _ _ hc]
          exact ⟨rfl, Nat.le_refl _⟩
        · subst hc
          rw [getD_append_self, getD_append_self]
          exact ⟨rfl, by simp⟩
        · rw [getD_append_gt _ _ _ _ _ hc, getD_append_gt _ _ _ _ _ hc]
          exact ⟨rfl, Nat.le_refl _⟩
      · intro j hj hj2
        subst hj2
        rw [getD_append_self]

theorem zeroRange_length (start n : Nat) (l : List Nat) :
    (zeroRange start n l).length = l.length ∨ l.length < start + n := by
  simp [zeroRange]
  omega

theorem zeroRange_getD_zero (start n : Nat) (l : List Nat) (j : Nat) (hj : j < n)
    (hb : start + n ≤ l.length) : (zeroRange start n l).getD (start + j) 1 = 0 := by
  have htake : (l.take start).length = start := by simp; omega
  have hmid : (((l.drop start).take n).map (fun _ => (0 : Nat))).length = n := by
    simp
    omega
  unfold zeroRange
  rw [List.getD_append _ _ _ _ (by rw [List.length_append, htake, hmid]; omega),
    List.getD_append_right _ _ _ _ (by omega)]
  rw [htake, Nat.add_sub_cancel_left, List.getD_eq_getElem _ _ (by omega)]
  simp

/-- Behaviour of the `allocFieldIDSlice` search loop; as for
`childAllocLoop`, with the handed-out region additionally zero-filled. -/
theorem fieldAllocLoop_spec (cls : arenaClass) (n : Nat) (hn : 0 < n) :
    ∀ (rest pre : List fieldSliceSlab),
      (∀ s ∈ pre ++ rest, s.used ≤ s.data.length) →
      ((∀ s ∈ (fieldAllocLoop cls n pre rest).1, s.used ≤ s.data.length) ∧
       (fieldAllocLoop cls n pre rest).2.1 < (fieldAllocLoop cls n pre rest).1.length ∧
       (fieldAllocLoop cls n pre rest).2.2 + n ≤
         ((fieldAllocLoop cls n pre rest).1.getD (fieldAllocLoop cls n pre rest).2.1
           ⟨[], 0⟩).used ∧
       (pre ++ rest).length ≤ (fieldAllocLoop cls n pre rest).1.length ∧
       (∀ j, j < (pre ++ rest).length →
         ((fieldAllocLoop cls n pre rest).1.getD j ⟨[], 0⟩).data.length =
           ((pre ++ rest).getD j ⟨[], 0⟩).data.length ∧
         ((pre ++ rest).getD j ⟨[], 0⟩).used ≤
           ((fieldAllocLoop cls n pre rest).1.getD j ⟨[], 0⟩).used) ∧
       (∀ j, j < (pre ++ rest).length → j = (fieldAllocLoop cls n pre rest).2.1 →
         ((pre ++ rest).getD j ⟨[], 0⟩).used ≤ (fieldAllocLoop cls n pre rest).2.2) ∧
       (∀ j, j < n →
         ((fieldAllocLoop cls n pre rest).1.getD (fieldAllocLoop cls n pre rest).2.1
           ⟨[], 0⟩).data.getD ((fieldAllocLoop cls n pre rest).2.2 + j) 1 = 0)) := by
  intro rest
  induction rest with
  | nil =>
    intro pre hWF
    simp only [fieldAllocLoop, List.append_nil]
    refine ⟨?_, by simp, ?_, by simp, ?_, ?_, ?_⟩
    · intro s hs
      rcases List.mem_append.1 hs with hs | hs
      · exact hWF s (by simpa using hs)
      · rcases List.mem_singleton.1 hs with rfl
        simp
    · rw [getD_append_self]
      simp
    · intro j hj
      rw [List.getD_append _ _ _ _ hj]
      exact ⟨rfl, Nat.le_refl _⟩
    · intro j hj hj2
      omega
    · intro j hj
      rw [getD_append_self]
      simp only [Nat.zero_add]
      rw [List.getD_eq_getElem _ _ (by simp; omega)]
      simp
  | cons slab rest' ih =>
    intro pre hWF
    by_cases hfit : slab.data.length - slab.used < n
    · have hre : pre ++ slab :: rest' = (pre ++ [slab]) ++ rest' := by simp
      rw [fieldAllocLoop, if_pos hfit]
      rw [hre] at hWF ⊢
      exact ih (pre ++ [slab]) hWF
    · rw [fieldAllocLoop, if_neg hfit]
      have hslab : slab.used ≤ slab.data.length := hWF slab (by simp)
      have hzl : (zeroRange slab.used n slab.data).length = slab.data.length := by
        rcases zeroRange_length slab.used n slab.data with h | h
        · exact h
        · omega
      refine ⟨?_, by simp, ?_, by simp, ?_, ?_, ?_⟩
      · intro s hs
        rcases List.mem_append.1 hs with hs | hs
        · exact hWF s (List.mem_append.2 (Or.inl hs))
        · rcases List.mem_cons.1 hs with rfl | hs
          · simp [hzl]
            omega
          · exact hWF s (by simp [hs])
      · rw [getD_append_self]
      · intro j hj
        rcases Nat.lt_trichotomy j pre.length with hc | hc | hc
        · rw [List.getD_append _ _ _ _ hc, List.getD_append _ _ _ _ hc]
          exact ⟨rfl, Nat.le_refl _⟩
        · subst hc
          rw [getD_append_self, getD_append_self]
          exact ⟨by simpa using hzl, by simp⟩
        · rw [getD_append_gt _ _ _ _ _ hc, getD_append_gt _ _ _ _ _ hc]
          exact ⟨rfl, Nat.le_refl _⟩
      · intro j hj hj2
        subst hj2
        rw [getD_append_self]
      · intro j hj
        rw [getD_append_self]
        exact zeroRange_getD_zero slab.used n slab.data j hj (by omega)

/-- `allocNodeSlice` on a well-formed arena: it returns a length-`n`
region settled inside one child slab, keeps the arena well formed, leaves
the other storage untouched, and the new region is disjoint from every
previously settled region. -/
theorem allocNodeSlice_spec (a : nodeArena) (n : Nat) (hW : a.WF) (hn : 0 < n) :
    ∃ a' idx start,
      a.allocNodeSlice n = (a', some ⟨.childPtr, idx, start, n⟩) ∧
      a'.WF ∧
      a'.fieldSlabs = a.fieldSlabs ∧
      a'.nodes = a.nodes ∧
      a'.used = a.used ∧
      settledIn a' ⟨.childPtr, idx, start, n⟩ ∧
      (∀ r0, settledIn a r0 →
        settledIn a' r0 ∧ r0.Disjoint ⟨.childPtr, idx, start, n⟩) := by
  obtain ⟨hWn, hWc, hWf⟩ := hW
  have hn0 : ¬ n = 0 := by omega
  set sl0 := (if a.childSlabs.isEmpty then
      [({ data := List.replicate (defaultChildSliceCap a.cls) none,
          used := 0 } : childSliceSlab)]
    else a.childSlabs) with hsl0
  set c := (if a.childSlabCursor < 0 ∨ (sl0.length : Int) ≤ a.childSlabCursor then 0
      else a.childSlabCursor.toNat) with hc
  set res := childAllocLoop a.cls n (sl0.take c) (sl0.drop c) with hres0
  have hWF0 : ∀ s ∈ sl0, s.used ≤ s.data.length := by
    rw [hsl0]
    split
    · intro s hs
      rcases List.mem_singleton.1 hs with rfl
      simp
    · exact hWc
  have hunf : a.allocNodeSlice n =
      ({ a with childSlabs := res.1, childSlabCursor := (res.2.1 : Int) },
       some ⟨.childPtr, res.2.1, res.2.2, n⟩) := by
    rw [nodeArena.allocNodeSlice, if_neg hn0]
  have h := childAllocLoop_spec a.cls n hn (sl0.drop c) (sl0.take c)
    (by rw [List.take_append_drop]; exact hWF0)
  rw [List.take_append_drop, ← hres0] at h
  obtain ⟨hres, hidx, hreg, hlen, hgrow, hstart⟩ := h
  have hmemres : (res.1.getD res.2.1 ⟨[], 0⟩) ∈ res.1 := by
    rw [List.getD_eq_getElem _ _ hidx]
    exact List.getElem_mem _
  refine ⟨_, _, _, hunf, ⟨hWn, hres, hWf⟩, rfl, rfl, rfl, ?_, ?_⟩
  · exact ⟨hidx, hreg, hres _ hmemres⟩
  · intro r0 hr0
    rcases hrf : r0.family with _ | _
    · -- a previously settled child-pointer region
      rw [settledIn, hrf] at hr0
      obtain ⟨h1, h2, h3⟩ := hr0
      have hne : ¬ a.childSlabs.isEmpty := by
        rw [List.isEmpty_iff]
        intro hnil
        rw [hnil] at h1
        simp at h1
      have hsl : sl0 = a.childSlabs := by rw [hsl0, if_neg hne]
      have h1' : r0.slabIdx < sl0.length := by rw [hsl]; exact h1
      obtain ⟨hgl, hgu⟩ := hgrow r0.slabIdx h1'
      rw [hsl] at hgl hgu
      have hmem : (res.1.getD r0.slabIdx ⟨[], 0⟩) ∈ res.1 := by
        rw [List.getD_eq_getElem _ _ (by omega)]
        exact List.getElem_mem _
      constructor
      · rw [settledIn, hrf]
        show r0.slabIdx < res.1.length ∧
          r0.start + r0.len ≤ (res.1.getD r0.slabIdx ⟨[], 0⟩).used ∧
          (res.1.getD r0.slabIdx ⟨[], 0⟩).used ≤ (res.1.getD r0.slabIdx ⟨[], 0⟩).data.length
        exact ⟨by omega, by omega, hres _ hmem⟩
      · by_cases hj : r0.slabIdx = res.2.1
        · have hst := hstart r0.slabIdx h1' hj
          rw [hsl] at hst
          refine Or.inr (Or.inr (Or.inl ?_))
          show r0.start + r0.len ≤ res.2.2
          omega
        · exact Or.inr (Or.inl (by simpa using hj))
    · -- a previously settled field-id region: untouched, different family
      rw [settledIn, hrf] at hr0
      constructor
      · rw [settledIn, hrf]
        exact hr0
      · exact Or.inl (by rw [hrf]; simp)

/-- `allocFieldIDSlice` on a well-formed arena; as `allocNodeSlice_spec`,
with the returned region additionally zero-filled. -/
theorem allocFieldIDSlice_spec (a : nodeArena) (n : Nat) (hW : a.WF) (hn : 0 < n) :
    ∃ a' idx start,
      a.allocFieldIDSlice n = (a', some ⟨.fieldId, idx, start, n⟩) ∧
      a'.WF ∧
      a'.childSlabs = a.childSlabs ∧
      a'.nodes = a.nodes ∧
      a'.used = a.used ∧
      settledIn a' ⟨.fieldId, idx, start, n⟩ ∧
      (∀ j, j < n → (a'.fieldSlabs.getD idx ⟨[], 0⟩).data.getD (start + j) 1 = 0) ∧
      (∀ r0, settledIn a r0 →
        settledIn a' r0 ∧ r0.Disjoint ⟨.fieldId, idx, start, n⟩) := by
  obtain ⟨hWn, hWc, hWf⟩ := hW
  have hn0 : ¬ n = 0 := by omega
  set sl0 := (if a.fieldSlabs.isEmpty then
      [({ data := List.replicate (defaultFieldSliceCap a.cls) 0,
          used := 0 } : fieldSliceSlab)]
    else a.fieldSlabs) with hsl0
  set c := (if a.fieldSlabCursor < 0 ∨ (sl0.length : Int) ≤ a.fieldSlabCursor then 0
      else a.fieldSlabCursor.toNat) with hc
  set res := fieldAllocLoop a.cls n (sl0.take c) (sl0.drop c) with hres0
  have hWF0 : ∀ s ∈ sl0, s.used ≤ s.data.length := by
    rw [hsl0]
    split
    · intro s hs
      rcases List.mem_singleton.1 hs with rfl
      simp
    · exact hWf
  have hunf : a.allocFieldIDSlice n =
      ({ a with fieldSlabs := res.1, fieldSlabCursor := (res.2.1 : Int) },
       some ⟨.fieldId, res.2.1, res.2.2, n⟩) := by
    rw [nodeArena.allocFieldIDSlice, if_neg hn0]
  have h := fieldAllocLoop_spec a.cls n hn (sl0.drop c) (sl0.take c)
    (by rw [List.take_append_drop]; exact hWF0)
  rw [List.take_append_drop, ← hres0] at h
  obtain ⟨hres, hidx, hreg, hlen, hgrow, hstart, hzero⟩ := h
  have hmemres : (res.1.getD res.2.1 ⟨[], 0⟩) ∈ res.1 := by
    rw [List.getD_eq_getElem _ _ hidx]
    exact List.getElem_mem _
  refine ⟨_, _, _, hunf, ⟨hWn, hWc, hres⟩, rfl, rfl, rfl, ?_, ?_, ?_⟩
  · exact ⟨hidx, hreg, hres _ hmemres⟩
  · exact hzero
  · intro r0 hr0
    rcases hrf : r0.family with _ | _
    · -- a previously settled child-pointer region: untouched, different family
      rw [settledIn, hrf] at hr0
      constructor
      · rw [settledIn, hrf]
        exact hr0
      · exact Or.inl (by rw [hrf]; simp)
    · rw [settledIn, hrf] at hr0
      obtain ⟨h1, h2, h3⟩ := hr0
      have hne : ¬ a.fieldSlabs.isEmpty := by
        rw [List.isEmpty_iff]
        intro hnil
        rw [hnil] at h1
        simp at h1
      have hsl : sl0 = a.fieldSlabs := by rw [hsl0, if_neg hne]
      have h1' : r0.slabIdx < sl0.length := by rw [hsl]; exact h1
      obtain ⟨hgl, hgu⟩ := hgrow r0.slabIdx h1'
      rw [hsl] at hgl hgu
      have hmem : (res.1.getD r0.slabIdx ⟨[], 0⟩) ∈ res.1 := by
        rw [List.getD_eq_getElem _ _ (by omega)]
        exact List.getElem_mem _
      constructor
      · rw [settledIn, hrf]
        show r0.slabIdx < res.1.length ∧
          r0.start + r0.len ≤ (res.1.getD r0.slabIdx ⟨[], 0⟩).used ∧
          (res.1.getD r0.slabIdx ⟨[], 0⟩).used ≤ (res.1.getD r0.slabIdx ⟨[], 0⟩).data.length
        exact ⟨by omega, by omega, hres _ hmem⟩
      · by_cases hj : r0.slabIdx = res.2.1
        · have hst := hstart r0.slabIdx h1' hj
          rw [hsl] at hst
          refine Or.inr (Or.inr (Or.inl ?_))
          show r0.start + r0.len ≤ res.2.2
          omega
        · exact Or.inr (Or.inl (by simpa using hj))

/-- One request preserves well-formedness and settled regions, and its
result (when it hands out a slice) is settled and disjoint from every
previously settled region. -/
theorem allocOne_spec (a : nodeArena) (req : AllocReq) (hW : a.WF) :
    (allocOne a req).1.WF ∧
    (∀ ref, (allocOne a req).2 = some ref → settledIn (allocOne a req).1 ref) ∧
    (∀ r0, settledIn a r0 → settledIn (allocOne a req).1 r0 ∧
      ∀ ref, (allocOne a req).2 = some ref → r0.Disjoint ref) := by
  cases req with
  | nodeSlice n =>
    by_cases hn : n = 0
    · subst hn
      have : allocOne a (.nodeSlice 0) = (a, none) := by
        simp [allocOne, nodeArena.allocNodeSlice]
      rw [this]
      exact ⟨hW, by simp, fun r0 h => ⟨h, by simp⟩⟩
    · obtain ⟨a', idx, start, heq, hWF', _, _, _, hsettled, hpres⟩ :=
        allocNodeSlice_spec a n hW (by omega)
      have : allocOne a (.nodeSlice n) = (a', some ⟨.childPtr, idx, start, n⟩) := heq
      rw [this]
      refine ⟨hWF', ?_, ?_⟩
      · rintro ref h
        injection h with h
        subst h
        exact hsettled
      · intro r0 h0
        refine ⟨(hpres r0 h0).1, ?_⟩
        rintro ref h
        injection h with h
        subst h
        exact (hpres r0 h0).2
  | fieldSlice n =>
    by_cases hn : n = 0
    · subst hn
      have : allocOne a (.fieldSlice 0) = (a, none) := by
        simp [allocOne, nodeArena.allocFieldIDSlice]
      rw [this]
      exact ⟨hW, by simp, fun r0 h => ⟨h, by simp⟩⟩
    · obtain ⟨a', idx, start, heq, hWF', _, _, _, hsettled, _, hpres⟩ :=
        allocFieldIDSlice_spec a n hW (by omega)
      have : allocOne a (.fieldSlice n) = (a', some ⟨.fieldId, idx, start, n⟩) := heq
      rw [this]
      refine ⟨hWF', ?_, ?_⟩
      · rintro ref h
        injection h with h
        subst h
        exact hsettled
      · intro r0 h0
        refine ⟨(hpres r0 h0).1, ?_⟩
        rintro ref h
        injection h with h
        subst h
        exact (hpres r0 h0).2

/-- Any sequence of slice allocations from a well-formed arena hands out
settled, pairwise-disjoint regions. -/
theorem allocSeq_spec :
    ∀ (reqs : List AllocReq) (a : nodeArena), a.WF →
      ((allocSeq a reqs).1.WF ∧
       (∀ ref ∈ (allocSeq a reqs).2.reduceOption, settledIn (allocSeq a reqs).1 ref) ∧
       (∀ r0, settledIn a r0 → settledIn (allocSeq a reqs).1 r0 ∧
         ∀ ref ∈ (allocSeq a reqs).2.reduceOption, r0.Disjoint ref) ∧
       List.Pairwise SliceRef.Disjoint (allocSeq a reqs).2.reduceOption) := by
  intro reqs
  induction reqs with
  | nil =>
    intro a hW
    exact ⟨hW, by simp [allocSeq, List.reduceOption], fun r0 h =>
      ⟨h, by simp [allocSeq, List.reduceOption]⟩, by simp [allocSeq, List.reduceOption]⟩
  | cons r rs ih =>
    intro a hW
    obtain ⟨h1W, h1new, h1pres⟩ := allocOne_spec a r hW
    obtain ⟨h2W, h2new, h2pres, h2pw⟩ := ih (allocOne a r).1 h1W
    have hseq : allocSeq a (r :: rs) =
        ((allocSeq (allocOne a r).1 rs).1,
         (allocOne a r).2 :: (allocSeq (allocOne a r).1 rs).2) := by
      rw [allocSeq]
    rw [hseq]
    cases hhead : (allocOne a r).2 with
    | none =>
      simp only [List.reduceOption_cons_of_none]
      exact ⟨h2W, h2new, fun r0 h0 =>
        ⟨(h2pres r0 ((h1pres r0 h0).1)).1, (h2pres r0 ((h1pres r0 h0).1)).2⟩, h2pw⟩
    | some x =>
      simp only [List.reduceOption_cons_of_some]
      have hxset : settledIn (allocOne a r).1 x := h1new x hhead
      refine ⟨h2W, ?_, ?_, ?_⟩
      · intro ref href
        rcases List.mem_cons.1 href with rfl | href
        · exact (h2pres ref hxset).1
        · exact h2new ref href
      · intro r0 h0
        refine ⟨(h2pres r0 ((h1pres r0 h0).1)).1, ?_⟩
        intro ref href
        rcases List.mem_cons.1 href with rfl | href
        · exact (h1pres r0 h0).2 ref hhead
        · exact (h2pres r0 ((h1pres r0 h0).1)).2 ref href
      · exact List.Pairwise.cons (fun y hy => (h2pres x hxset).2 y hy) h2pw

/-- **C9.** For every well-formed arena and `n > 0`, `allocNodeSlice n`
returns a length-`n` region inside one child slab, `allocFieldIDSlice n`
returns a length-`n` region inside one field slab with all entries zero,
and any two slices allocated from the same arena between resets occupy
disjoint regions of the arena's slab storage. -/
theorem arena_slice_alloc (a : nodeArena) (n : Nat) (hW : a.WF) (hn : 0 < n) :
    (∃ a' idx start, a.allocNodeSlice n = (a', some ⟨.childPtr, idx, start, n⟩) ∧
      idx < a'.childSlabs.length ∧
      start + n ≤ (a'.childSlabs.getD idx ⟨[], 0⟩).data.length) ∧
    (∃ a' idx start, a.allocFieldIDSlice n = (a', some ⟨.fieldId, idx, start, n⟩) ∧
      idx < a'.fieldSlabs.length ∧
      start + n ≤ (a'.fieldSlabs.getD idx ⟨[], 0⟩).data.length ∧
      ∀ j, j < n → (a'.fieldSlabs.getD idx ⟨[], 0⟩).data.getD (start + j) 1 = 0) ∧
    (∀ reqs : List AllocReq,
      List.Pairwise SliceRef.Disjoint ((allocSeq a reqs).2.reduceOption)) := by
  refine ⟨?_, ?_, ?_⟩
  · obtain ⟨a', idx, start, heq, _, _, _, _, hsettled, _⟩ := allocNodeSlice_spec a n hW hn
    obtain ⟨h1, h2, h3⟩ := hsettled
    have h2' : start + n ≤ (a'.childSlabs.getD idx ⟨[], 0⟩).used := h2
    have h3' : (a'.childSlabs.getD idx ⟨[], 0⟩).used ≤
        (a'.childSlabs.getD idx ⟨[], 0⟩).data.length := h3
    exact ⟨a', idx, start, heq, h1, by omega⟩
  · obtain ⟨a', idx, start, heq, _, _, _, _, hsettled, hzero, _⟩ :=
      allocFieldIDSlice_spec a n hW hn
    obtain ⟨h1, h2, h3⟩ := hsettled
    have h2' : start + n ≤ (a'.fieldSlabs.getD idx ⟨[], 0⟩).used := h2
    have h3' : (a'.fieldSlabs.getD idx ⟨[], 0⟩).used ≤
        (a'.fieldSlabs.getD idx ⟨[], 0⟩).data.length := h3
    exact ⟨a', idx, start, heq, h1, by omega, hzero⟩
  · intro reqs
    exact (allocSeq_spec reqs a hW).2.2.2

theorem arena_slice_alloc_witness :
    (⟨arenaClass.incremental, [], 0, 1, [⟨[none, none, none], 1⟩], [⟨[1, 2, 3], 0⟩],
        0, 0⟩ : nodeArena).WF ∧
    (0 < 2) ∧
    List.Pairwise SliceRef.Disjoint
      ((allocSeq
        ⟨arenaClass.incremental, [], 0, 1, [⟨[none, none, none], 1⟩], [⟨[1, 2, 3], 0⟩], 0, 0⟩
        [.nodeSlice 2, .fieldSlice 3, .nodeSlice 1]).2.reduceOption) :=
  ⟨⟨by decide, by decide, by decide⟩, by decide,
   (arena_slice_alloc
      ⟨arenaClass.incremental, [], 0, 1, [⟨[none, none, none], 1⟩], [⟨[1, 2, 3], 0⟩], 0, 0⟩
      2 ⟨by decide, by decide, by decide⟩ (by decide)).2.2
      [.nodeSlice 2, .fieldSlice 3, .nodeSlice 1]⟩

theorem allocNode_spec_witness :
    allocNode (some ⟨arenaClass.incremental, [zeroNode, zeroNode], 0, 1, [], [], 0, 0⟩) =
      (some ⟨arenaClass.incremental, [zeroNode, zeroNode].set 0 zeroNode, 1, 1, [], [], 0, 0⟩,
       .slab 0, zeroNode) :=
  (allocNode_spec (some ⟨arenaClass.incremental, [zeroNode, zeroNode], 0, 1, [], [], 0, 0⟩)).2.2.1
    ⟨arenaClass.incremental, [zeroNode, zeroNode], 0, 1, [], [], 0, 0⟩ rfl (by simp)

/-! ## Theorems about the incremental reuse engine -/

/-- **C2.** The graft admissibility check accepts a leaf candidate only if
its symbol equals the lookahead symbol and the action entry for
`(state, symbol)` contains a shift, the resulting state being kept when
the entry's leading action is an extra-token shift and being the first
shift's target otherwise; and it accepts an inner candidate only if the
goto table maps `(state, N.symbol)` to exactly `N.parseState`, the
resulting state being that goto state. -/
theorem reuseTargetState_admissibility (p : Parser) (st : StateID) (n : Node)
    (la : Token) (s' : StateID) (h : p.reuseTargetState st n la = some s') :
    (n.childCount = 0 →
      n.symbol = la.Sym ∧
      ∃ entry a0 rest, p.lookupAction st n.symbol = some entry ∧
        entry.Actions = a0 :: rest ∧
        (∃ act ∈ entry.Actions, act.type = ParseActionType.shift) ∧
        ((a0.type = ParseActionType.shift ∧ a0.extra = true ∧ s' = st) ∨
         (¬(a0.type = ParseActionType.shift ∧ a0.extra = true) ∧
           ∃ act, entry.Actions.find?
               (fun act => decide (act.type = ParseActionType.shift)) = some act ∧
             act.type = ParseActionType.shift ∧ s' = act.state))) ∧
    (n.childCount ≠ 0 →
      p.lookupGoto st n.symbol = n.parseState ∧ s' = p.lookupGoto st n.symbol) := by
  constructor
  · intro hc
    rw [Parser.reuseTargetState, if_pos hc] at h
    split at h
    · exact absurd h (by simp)
    · rename_i hsym
      push_neg at hsym
      refine ⟨hsym, ?_⟩
      split at h
      · exact absurd h (by simp)
      · rename_i action hact
        split at h
        · exact absurd h (by simp)
        · rename_i a0 rest hacts
          by_cases hextra : a0.type = ParseActionType.shift ∧ a0.extra = true
          · rw [if_pos hextra] at h
            injection h with h
            exact ⟨action, a0, rest, hact, hacts,
              ⟨a0, by rw [hacts]; exact List.mem_cons_self _ _, hextra.1⟩,
              Or.inl ⟨hextra.1, hextra.2, h.symm⟩⟩
          · rw [if_neg hextra] at h
            split at h
            · rename_i act hfind
              injection h with h
              have hsh := List.find?_some hfind
              refine ⟨action, a0, rest, hact, hacts,
                ⟨act, ?_, by simpa using hsh⟩,
                Or.inr ⟨hextra, act, by rw [hacts]; exact hfind,
                  by simpa using hsh, h.symm⟩⟩
              rw [hacts]
              exact List.mem_of_find?_eq_some hfind
            · exact absurd h (by simp)
  · intro hc
    rw [Parser.reuseTargetState, if_neg hc] at h
    have h2 : (if p.lookupGoto st n.symbol = 0 then none
        else if p.lookupGoto st n.symbol ≠ n.parseState then none
        else some (p.lookupGoto st n.symbol)) = some s' := h
    split at h2
    · exact absurd h2 (by simp)
    · split at h2
      · exact absurd h2 (by simp)
      · rename_i hg0 hgs
        push_neg at hgs
        injection h2 with h2
        exact ⟨hgs, h2.symm⟩

theorem reuseTargetState_admissibility_witness :
    (Parser.reuseTargetState
        ⟨fun st sym => if st = 1 ∧ sym = 7 then some ⟨[⟨ParseActionType.shift, 5, false⟩]⟩
          else none,
         fun _ _ => 0⟩
        1 (Node.mk 7 0 0 1 false false []) ⟨7, 0, 1⟩ = some 5) ∧
    (Node.mk 7 0 0 1 false false []).symbol = (⟨7, 0, 1⟩ : Token).Sym :=
  ⟨rfl,
   ((reuseTargetState_admissibility
      ⟨fun st sym => if st = 1 ∧ sym = 7 then some ⟨[⟨ParseActionType.shift, 5, false⟩]⟩
        else none,
       fun _ _ => 0⟩
      1 (Node.mk 7 0 0 1 false false []) ⟨7, 0, 1⟩ 5 rfl).1 rfl).1⟩

theorem node_strong_induction {P : Node → Prop}
    (h : ∀ n : Node, (∀ c ∈ n.children, P c) → P n) (n : Node) : P n :=
  h n (fun c hc => node_strong_induction h c)
termination_by sizeOf n
decreasing_by
  cases n with
  | mk sym ps sb eb d e children =>
    simp only [Node.children] at hc
    have h2 := List.sizeOf_lt_of_mem hc
    simp only [Node.mk.sizeOf_spec]
    omega

theorem occursUnder_iff (p : Node) (anc : List Node) (m : Node) :
    OccursUnder p anc m ↔ (anc = [] ∧ m = p) ∨
      (∃ anc' c, anc = p :: anc' ∧ c ∈ p.children ∧ OccursUnder c anc' m) := by
  constructor
  · intro h
    cases h with
    | here => exact Or.inl ⟨rfl, rfl⟩
    | child hc hoc => exact Or.inr ⟨_, _, rfl, hc, hoc⟩
  · rintro (⟨rfl, rfl⟩ | ⟨anc', c, rfl, hc, hoc⟩)
    · exact .here _
    · exact .child hc hoc

theorem mem_reuseYieldsList (env : ReuseEnv) (ud : Bool) :
    ∀ (l : List Node) (n : Node),
      n ∈ reuseYieldsList env ud l ↔ ∃ c ∈ l, n ∈ reuseYields env ud c := by
  intro l n
  induction l with
  | nil => simp [reuseYieldsList]
  | cons c cs ih =>
    rw [reuseYieldsList, List.mem_append, ih]
    simp

theorem dirtyAfterUndo_mk (env : ReuseEnv) (sym ps sb eb : Nat) (d e : Bool)
    (children : List Node) :
    dirtyAfterUndo env (Node.mk sym ps sb eb d e children) =
      (d && !(nodeBytesEqual sb eb env.oldSource env.newSource)) := rfl

theorem ancUnder_nil (env : ReuseEnv) (ud : Bool) : ancUnder env ud [] = ud := by
  simp [ancUnder]

theorem ancUnder_cons (env : ReuseEnv) (ud : Bool) (a : Node) (anc : List Node) :
    ancUnder env ud (a :: anc) = ancUnder env (ud || dirtyAfterUndo env a) anc := by
  simp [ancUnder, Bool.or_assoc]

theorem skip_false_iff (env : ReuseEnv) (ud : Bool) (sym ps sb eb : Nat) (d e : Bool)
    (children : List Node) :
    (((ud && env.hasEdits && decide (eb ≤ env.minEditAt)) ||
        e || decide (eb ≤ sb) || decide (env.sourceLen < eb) ||
        (d && !(nodeBytesEqual sb eb env.oldSource env.newSource))) = false) ↔
      yieldCond env ud (Node.mk sym ps sb eb d e children) := by
  unfold yieldCond
  rw [dirtyAfterUndo_mk]
  simp only [Node.hasError, Node.startByte, Node.endByte]
  simp [Bool.or_eq_false_iff, Bool.and_eq_false_iff, decide_eq_false_iff_not,
    Nat.not_le, Nat.not_lt, and_assoc]

theorem mem_reuseYields_iff (env : ReuseEnv) (root : Node) :
    ∀ (ud : Bool) (n : Node),
      n ∈ reuseYields env ud root ↔
        ∃ anc m, OccursUnder root anc m ∧ n = Node.withDirty false m ∧
          yieldCond env (ancUnder env ud anc) m := by
  induction root using node_strong_induction with
  | _ nd hIH =>
    obtain ⟨sym, ps, sb, eb, d, e, children⟩ := nd
    simp only [Node.children] at hIH
    intro ud n
    simp only [reuseYields]
    rw [List.mem_append, mem_reuseYieldsList]
    constructor
    · rintro (hself | ⟨c, hc, hcm⟩)
      · by_cases hs : ((ud && env.hasEdits && decide (eb ≤ env.minEditAt)) ||
            e || decide (eb ≤ sb) || decide (env.sourceLen < eb) ||
            (d && !(nodeBytesEqual sb eb env.oldSource env.newSource))) = true
        · rw [if_pos hs] at hself
          simp at hself
        · rw [if_neg hs] at hself
          rcases List.mem_singleton.1 hself with rfl
          refine ⟨[], Node.mk sym ps sb eb d e children, .here _, rfl, ?_⟩
          rw [ancUnder_nil]
          exact (skip_false_iff env ud sym ps sb eb d e children).1 (by simpa using hs)
      · rcases (hIH c hc _ n).1 hcm with ⟨anc, m, hocc, hn, hcond⟩
        refine ⟨Node.mk sym ps sb eb d e children :: anc, m,
          .child (by simpa [Node.children] using hc) hocc, hn, ?_⟩
        rw [ancUnder_cons, dirtyAfterUndo_mk]
        exact hcond
    · rintro ⟨anc, m, hocc, hn, hcond⟩
      rcases (occursUnder_iff _ _ _).1 hocc with ⟨rfl, rfl⟩ | ⟨anc', c, rfl, hc, hocc'⟩
      · left
        rw [ancUnder_nil] at hcond
        have hs := (skip_false_iff env ud sym ps sb eb d e children).2 hcond
        rw [if_neg (by rw [hs]; exact Bool.false_ne_true)]
        exact List.mem_singleton.2 hn
      · right
        simp only [Node.children] at hc
        refine ⟨c, hc, (hIH c hc _ n).2 ⟨anc', m, hocc', hn, ?_⟩⟩
        rw [ancUnder_cons, dirtyAfterUndo_mk] at hcond
        exact hcond

/-- **C3 (amended).** The reuse cursor's pre-order walk over the old tree
yields a node exactly when, at one of its occurrences: it is not the case
that it sits under a dirty ancestor while edits exist and the node itself
ends at or before the earliest edit's start byte; it is not itself dirty
after the undo-edit check; it has no error; its end byte is strictly
greater than its start byte; and its end byte is at most the new source
length.  (The yielded value carries the cleared dirty flag.) -/
theorem reuseCursor_yields_iff (old : Tree) (source : List Nat) (n : Node) :
    n ∈ reuseYields (reuseCursorEnv old source) false old.root ↔
      ∃ anc m, OccursUnder old.root anc m ∧ n = Node.withDirty false m ∧
        yieldCond (reuseCursorEnv old source)
          (ancUnder (reuseCursorEnv old source) false anc) m :=
  mem_reuseYields_iff _ _ _ _

/-- **C3, counterexample to the claim as stated.** The claim skips a node
only when it is under a dirty ancestor *that itself ends before the
earliest edit*.  Here the dirty root spans `[0, 30)` while the earliest
edit starts at byte 10, so no dirty ancestor of the child ends before
the edit; the child `[0, 5)` is clean, error free, non-empty and within
the new source, so the claim says it is yielded — but the walk yields
nothing, because the code compares the *node's own* end byte (5 ≤ 10)
against the earliest edit, not the ancestor's. -/
theorem reuse_yield_claim_counterexample :
    dirtyAfterUndo
      (reuseCursorEnv
        ⟨Node.mk 0 0 0 30 true false [Node.mk 1 0 0 5 false false []],
         List.replicate 30 0, [⟨10, 10, 11, ⟨0, 10⟩, ⟨0, 10⟩, ⟨0, 11⟩⟩]⟩
        (List.replicate 20 0 ++ List.replicate 10 1))
      (Node.mk 0 0 0 30 true false [Node.mk 1 0 0 5 false false []]) = true ∧
    ¬((Node.mk 0 0 0 30 true false [Node.mk 1 0 0 5 false false []]).endByte ≤
      (reuseCursorEnv
        ⟨Node.mk 0 0 0 30 true false [Node.mk 1 0 0 5 false false []],
         List.replicate 30 0, [⟨10, 10, 11, ⟨0, 10⟩, ⟨0, 10⟩, ⟨0, 11⟩⟩]⟩
        (List.replicate 20 0 ++ List.replicate 10 1)).minEditAt) ∧
    OccursUnder (Node.mk 0 0 0 30 true false [Node.mk 1 0 0 5 false false []])
      [Node.mk 0 0 0 30 true false [Node.mk 1 0 0 5 false false []]]
      (Node.mk 1 0 0 5 false false []) ∧
    (Node.mk 1 0 0 5 false false []).dirty = false ∧
    (Node.mk 1 0 0 5 false false []).hasError = false ∧
    (Node.mk 1 0 0 5 false false []).startByte <
      (Node.mk 1 0 0 5 false false []).endByte ∧
    (Node.mk 1 0 0 5 false false []).endByte ≤
      (reuseCursorEnv
        ⟨Node.mk 0 0 0 30 true false [Node.mk 1 0 0 5 false false []],
         List.replicate 30 0, [⟨10, 10, 11, ⟨0, 10⟩, ⟨0, 10⟩, ⟨0, 11⟩⟩]⟩
        (List.replicate 20 0 ++ List.replicate 10 1)).sourceLen ∧
    reuseYields
      (reuseCursorEnv
        ⟨Node.mk 0 0 0 30 true false [Node.mk 1 0 0 5 false false []],
         List.replicate 30 0, [⟨10, 10, 11, ⟨0, 10⟩, ⟨0, 10⟩, ⟨0, 11⟩⟩]⟩
        (List.replicate 20 0 ++ List.replicate 10 1))
      false (Node.mk 0 0 0 30 true false [Node.mk 1 0 0 5 false false []]) = [] := by
  refine ⟨by decide, by decide,
    .child (by simp [Node.children]) (.here _),
    by decide, by decide, by decide, by decide, by rfl⟩

/-- **C6.** During the walk, a dirty node whose byte slice is identical
in the old and the new source (with its end within both) is treated
exactly like the same node with the dirty flag cleared; a dirty node
whose bytes differ keeps its dirty flag, is itself skipped, and its
children are walked under a dirty ancestor. -/
theorem undo_edit_check (env : ReuseEnv) (ud : Bool) (n : Node) (hd : n.dirty = true) :
    (nodeBytesEqual n.startByte n.endByte env.oldSource env.newSource = true →
      dirtyAfterUndo env n = false ∧
      reuseYields env ud n = reuseYields env ud (Node.withDirty false n)) ∧
    (nodeBytesEqual n.startByte n.endByte env.oldSource env.newSource = false →
      dirtyAfterUndo env n = true ∧
      reuseYields env ud n = reuseYieldsList env true n.children) := by
  obtain ⟨sym, ps, sb, eb, d, e, children⟩ := n
  simp only [Node.dirty] at hd
  subst hd
  constructor
  · intro hb
    simp only [Node.startByte, Node.endByte] at hb
    constructor
    · simp [dirtyAfterUndo, Node.dirty, Node.startByte, Node.endByte, hb]
    · simp only [reuseYields, Node.withDirty, hb]
      simp
  · intro hb
    simp only [Node.startByte, Node.endByte] at hb
    constructor
    · simp [dirtyAfterUndo, Node.dirty, Node.startByte, Node.endByte, hb]
    · simp only [reuseYields, Node.children, hb]
      simp

theorem undo_edit_check_witness :
    ((Node.mk 0 0 0 2 true false [] : Node).dirty = true) ∧
    (nodeBytesEqual 0 2 [7, 7] [7, 7] = true) ∧
    dirtyAfterUndo ⟨2, [7, 7], [7, 7], 0, false⟩ (Node.mk 0 0 0 2 true false []) = false :=
  ⟨by decide, by decide,
   ((undo_edit_check ⟨2, [7, 7], [7, 7], 0, false⟩ false
      (Node.mk 0 0 0 2 true false []) (by decide)).1 (by decide)).1⟩

/-! ## Theorems about the GLR stack merge -/

theorem mergeInto_not_mem (s : glrStack) :
    ∀ R : List glrStack, s.topState ∉ R.map glrStack.topState →
      mergeInto R s = R ++ [s] := by
  intro R
  induction R with
  | nil => intro _; rfl
  | cons r rs ih =>
    intro h
    rw [List.map_cons, List.mem_cons] at h
    push_neg at h
    rw [mergeInto, if_neg (fun he => h.1 he.symm), ih h.2, List.cons_append]

theorem mergeInto_map_topState (s : glrStack) :
    ∀ R : List glrStack,
      (mergeInto R s).map glrStack.topState =
        if s.topState ∈ R.map glrStack.topState then R.map glrStack.topState
        else R.map glrStack.topState ++ [s.topState] := by
  intro R
  induction R with
  | nil => simp [mergeInto]
  | cons r rs ih =>
    by_cases hk : r.topState = s.topState
    · have htop : (if s.score > r.score then s else r).topState = r.topState := by
        split
        · exact hk.symm
        · rfl
      rw [mergeInto, if_pos hk, List.map_cons, List.map_cons, htop,
        if_pos (List.mem_cons.2 (Or.inl hk.symm))]
    · have hne : s.topState ≠ r.topState := fun he => hk he.symm
      rw [mergeInto, if_neg hk, List.map_cons, ih, List.map_cons]
      by_cases hm : s.topState ∈ rs.map glrStack.topState
      · rw [if_pos hm, if_pos (List.mem_cons.2 (Or.inr hm))]
      · rw [if_neg hm,
          if_neg (by rw [List.mem_cons]; push_neg; exact ⟨hne, hm⟩),
          List.cons_append]

theorem mem_mergeInto (s x : glrStack) :
    ∀ R : List glrStack, x ∈ mergeInto R s → x ∈ R ∨ x = s := by
  intro R
  induction R with
  | nil =>
    intro h
    rcases List.mem_singleton.1 h with rfl
    exact Or.inr rfl
  | cons r rs ih =>
    intro h
    by_cases hk : r.topState = s.topState
    · rw [mergeInto, if_pos hk] at h
      rcases List.mem_cons.1 h with he | h
      · by_cases hsc : s.score > r.score
        · rw [if_pos hsc] at he
          exact Or.inr he
        · rw [if_neg hsc] at he
          exact Or.inl (List.mem_cons.2 (Or.inl he))
      · exact Or.inl (List.mem_cons_of_mem _ h)
    · rw [mergeInto, if_neg hk] at h
      rcases List.mem_cons.1 h with rfl | h
      · exact Or.inl (List.mem_cons_self _ _)
      · rcases ih h with h | h
        · exact Or.inl (List.mem_cons_of_mem _ h)
        · exact Or.inr h

theorem mergeInto_mem_key (s : glrStack) :
    ∀ R : List glrStack, s.topState ∈ R.map glrStack.topState →
      ∃ R1 r R2, R = R1 ++ r :: R2 ∧ r.topState = s.topState ∧
        (∀ x ∈ R1, x.topState ≠ s.topState) ∧
        mergeInto R s = R1 ++ (if s.score > r.score then s else r) :: R2 := by
  intro R
  induction R with
  | nil => intro h; simp at h
  | cons r rs ih =>
    intro h
    by_cases hk : r.topState = s.topState
    · exact ⟨[], r, rs, rfl, hk, by simp, by rw [mergeInto, if_pos hk]; rfl⟩
    · have hm : s.topState ∈ rs.map glrStack.topState := by
        rw [List.map_cons, List.mem_cons] at h
        rcases h with he | hm
        · exact absurd he.symm hk
        · exact hm
      rcases ih hm with ⟨R1, q, R2, hR, hq, hR1, hmi⟩
      refine ⟨r :: R1, q, R2, by rw [hR, List.cons_append], hq, ?_,
        by rw [mergeInto, if_neg hk, hmi, List.cons_append]⟩
      intro x hx
      rcases List.mem_cons.1 hx with rfl | hx
      · exact hk
      · exact hR1 x hx

theorem firstSeenKeys_append (l : List glrStack) (s : glrStack) :
    firstSeenKeys (l ++ [s]) =
      if s.topState ∈ firstSeenKeys l then firstSeenKeys l
      else firstSeenKeys l ++ [s.topState] := by
  simp [firstSeenKeys, List.foldl_append]

theorem mem_firstSeenKeys (k : Option StateID) :
    ∀ l : List glrStack, k ∈ firstSeenKeys l ↔ k ∈ l.map glrStack.topState := by
  intro l
  induction l using List.reverseRecOn with
  | nil => simp [firstSeenKeys]
  | append_singleton l s ih =>
    rw [firstSeenKeys_append]
    by_cases hm : s.topState ∈ firstSeenKeys l
    · rw [if_pos hm]
      constructor
      · intro h
        rw [List.map_append]
        exact List.mem_append.2 (Or.inl (ih.1 h))
      · intro h
        rcases List.mem_append.1 (by rwa [List.map_append] at h) with h | h
        · exact ih.2 h
        · rcases List.mem_singleton.1 (by simpa using h) with rfl
          exact hm
    · rw [if_neg hm]
      constructor
      · intro h
        rcases List.mem_append.1 h with h | h
        · rw [List.map_append]
          exact List.mem_append.2 (Or.inl (ih.1 h))
        · rcases List.mem_singleton.1 h with rfl
          rw [List.map_append]
          exact List.mem_append.2 (Or.inr (by simp))
      · intro h
        rcases List.mem_append.1 (by rwa [List.map_append] at h) with h | h
        · exact List.mem_append.2 (Or.inl (ih.2 h))
        · rcases List.mem_singleton.1 (by simpa using h) with rfl
          exact List.mem_append.2 (Or.inr (by simp))

theorem firstSeenKeys_nodup : ∀ l : List glrStack, (firstSeenKeys l).Nodup := by
  intro l
  induction l using List.reverseRecOn with
  | nil => simp [firstSeenKeys]
  | append_singleton l s ih =>
    rw [firstSeenKeys_append]
    by_cases hm : s.topState ∈ firstSeenKeys l
    · rwa [if_pos hm]
    · rw [if_neg hm]
      simp [List.nodup_append, ih, hm]

theorem pickFirstMax_append (l : List glrStack) (s : glrStack) :
    pickFirstMax (l ++ [s]) =
      match pickFirstMax l with
      | none => some s
      | some b => if s.score > b.score then some s else some b := by
  simp [pickFirstMax, List.foldl_append]

theorem mergeLinear_append (l : List glrStack) (s : glrStack) :
    mergeLinear (l ++ [s]) = mergeInto (mergeLinear l) s := by
  simp [mergeLinear, List.foldl_append]

theorem filter_key_eq_nil (l : List glrStack) (k : Option StateID)
    (h : k ∉ l.map glrStack.topState) :
    l.filter (fun t => decide (t.topState = k)) = [] := by
  rw [List.filter_eq_nil]
  intro a ha
  simp only [decide_eq_true_eq]
  intro he
  exact h (he ▸ List.mem_map_of_mem _ ha)

theorem mergeLinear_spec :
    ∀ alive : List glrStack,
      (mergeLinear alive).map glrStack.topState = firstSeenKeys alive ∧
      (∀ r ∈ mergeLinear alive, r ∈ alive) ∧
      (∀ r ∈ mergeLinear alive,
        pickFirstMax (alive.filter (fun t => decide (t.topState = r.topState))) =
          some r) := by
  intro alive
  induction alive using List.reverseRecOn with
  | nil => exact ⟨rfl, by simp [mergeLinear], by simp [mergeLinear]⟩
  | append_singleton l s ih =>
    obtain ⟨ih1, ih2, ih3⟩ := ih
    rw [mergeLinear_append, firstSeenKeys_append]
    by_cases hm : s.topState ∈ (mergeLinear l).map glrStack.topState
    · obtain ⟨R1, r, R2, hR, hrk, hR1, hmi⟩ := mergeInto_mem_key s (mergeLinear l) hm
      have hrmem : r ∈ mergeLinear l := by
        rw [hR]
        exact List.mem_append.2 (Or.inr (List.mem_cons_self _ _))
      have hnd : ((mergeLinear l).map glrStack.topState).Nodup := by
        rw [ih1]
        exact firstSeenKeys_nodup l
      have hR2 : ∀ x ∈ R2, x.topState ≠ s.topState := by
        intro x hx he
        rw [hR, List.map_append, List.map_cons] at hnd
        have hnd2 := hnd.of_append_right
        rw [List.nodup_cons] at hnd2
        apply hnd2.1
        have hxm : x.topState ∈ R2.map glrStack.topState := List.mem_map_of_mem _ hx
        rw [he, ← hrk] at hxm
        exact hxm
      have hwtop : (if s.score > r.score then s else r).topState = s.topState := by
        split
        · rfl
        · exact hrk
      rw [if_pos (show s.topState ∈ firstSeenKeys l by rwa [← ih1]), hmi]
      refine ⟨?_, ?_, ?_⟩
      · calc (R1 ++ (if s.score > r.score then s else r) :: R2).map glrStack.topState
            = (R1 ++ r :: R2).map glrStack.topState := by
              rw [List.map_append, List.map_append, List.map_cons, List.map_cons,
                hwtop, hrk]
          _ = firstSeenKeys l := by rw [← hR]; exact ih1
      · intro x hx
        rcases List.mem_append.1 hx with hx | hx
        · exact List.mem_append.2 (Or.inl (ih2 x
            (by rw [hR]; exact List.mem_append.2 (Or.inl hx))))
        · rcases List.mem_cons.1 hx with rfl | hx
          · split
            · exact List.mem_append.2 (Or.inr (by simp))
            · exact List.mem_append.2 (Or.inl (ih2 r hrmem))
          · exact List.mem_append.2 (Or.inl (ih2 x
              (by rw [hR]; exact List.mem_append.2 (Or.inr (List.mem_cons_of_mem _ hx)))))
      · intro x hx
        rcases List.mem_append.1 hx with hx | hx
        · have hxl : x ∈ mergeLinear l := by
            rw [hR]
            exact List.mem_append.2 (Or.inl hx)
          have hne : s.topState ≠ x.topState := fun he => hR1 x hx he.symm
          rw [List.filter_append,
            (by simp [hne] : [s].filter (fun t => decide (t.topState = x.topState)) = []),
            List.append_nil]
          exact ih3 x hxl
        · rcases List.mem_cons.1 hx with rfl | hx
          · have hpickl : pickFirstMax
                (l.filter (fun t => decide (t.topState = s.topState))) = some r := by
              rw [← hrk]
              exact ih3 r hrmem
            rw [hwtop, List.filter_append,
              (by simp : [s].filter (fun t => decide (t.topState = s.topState)) = [s]),
              pickFirstMax_append, hpickl]
            show (if s.score > r.score then some s else some r) =
              some (if s.score > r.score then s else r)
            split
            · rfl
            · rfl
          · have hxl : x ∈ mergeLinear l := by
              rw [hR]
              exact List.mem_append.2 (Or.inr (List.mem_cons_of_mem _ hx))
            have hne : s.topState ≠ x.topState := fun he => hR2 x hx he.symm
            rw [List.filter_append,
              (by simp [hne] : [s].filter (fun t => decide (t.topState = x.topState)) = []),
              List.append_nil]
            exact ih3 x hxl
    · have hmk : s.topState ∉ firstSeenKeys l := by rwa [ih1] at hm
      have hml : s.topState ∉ l.map glrStack.topState := by
        rw [← mem_firstSeenKeys]
        exact hmk
      rw [mergeInto_not_mem s _ hm, if_neg hmk]
      refine ⟨?_, ?_, ?_⟩
      · rw [List.map_append, ih1]
        rfl
      · intro x hx
        rcases List.mem_append.1 hx with hx | hx
        · exact List.mem_append.2 (Or.inl (ih2 x hx))
        · rcases List.mem_singleton.1 hx with rfl
          exact List.mem_append.2 (Or.inr (by simp))
      · intro x hx
        rcases List.mem_append.1 hx with hx | hx
        · have hne : s.topState ≠ x.topState := by
            intro he
            exact hm (he ▸ List.mem_map_of_mem _ hx)
          rw [List.filter_append,
            (by simp [hne] : [s].filter (fun t => decide (t.topState = x.topState)) = []),
            List.append_nil]
          exact ih3 x hx
        · have hxs : s = x := (List.mem_singleton.1 hx).symm
          subst hxs
          rw [List.filter_append, filter_key_eq_nil l _ hml,
            (by simp : [s].filter (fun t => decide (t.topState = s.topState)) = [s]),
            List.nil_append]
          rfl

theorem mergeLinear_short (alive : List glrStack) (h : alive.length ≤ 1) :
    mergeLinear alive = alive := by
  match alive with
  | [] => rfl
  | [s] => rfl
  | a :: b :: rest => simp at h

theorem filterMap_eq_self_of_some {α : Type} (f : α → Option α) :
    ∀ l : List α, (∀ x ∈ l, f x = some x) → l.filterMap f = l := by
  intro l
  induction l with
  | nil => intro _; rfl
  | cons a as ih =>
    intro h
    simp [List.filterMap_cons, h a (List.mem_cons_self _ _),
      ih (fun x hx => h x (List.mem_cons_of_mem _ hx))]

theorem mergeLinear_eq_spec (alive : List glrStack) :
    (firstSeenKeys alive).filterMap
      (fun k => pickFirstMax (alive.filter (fun s => decide (s.topState = k)))) =
      mergeLinear alive := by
  obtain ⟨h1, _, h3⟩ := mergeLinear_spec alive
  rw [← h1, List.filterMap_map]
  exact filterMap_eq_self_of_some _ _ (fun r hr => h3 r hr)

theorem bestOf_append (s : glrStack) :
    ∀ (R : List glrStack) (i : Nat),
      bestOf (R ++ [s]) i = bestOf R i ++ [(s.topState, i + R.length)] := by
  intro R
  induction R with
  | nil => intro i; simp [bestOf]
  | cons r rs ih =>
    intro i
    rw [List.cons_append, bestOf, bestOf, ih (i + 1)]
    rw [show i + 1 + rs.length = i + (r :: rs).length from by simp; omega]
    rw [List.cons_append]

theorem lookupBest_not_mem (k : Option StateID) :
    ∀ (R : List glrStack) (i : Nat), k ∉ R.map glrStack.topState →
      lookupBest (bestOf R i) k = none := by
  intro R
  induction R with
  | nil => intro i _; rfl
  | cons r rs ih =>
    intro i h
    rw [List.map_cons, List.mem_cons] at h
    push_neg at h
    rw [bestOf, lookupBest, List.find?_cons]
    rw [show (decide ((r.topState, i).1 = k)) = false from by
      simp
      exact fun he => h.1 he.symm]
    exact ih (i + 1) h.2

theorem lookupBest_split (k : Option StateID) (r : glrStack) (hrk : r.topState = k) :
    ∀ (R1 : List glrStack) (R2 : List glrStack) (i : Nat),
      (∀ x ∈ R1, x.topState ≠ k) →
      lookupBest (bestOf (R1 ++ r :: R2) i) k = some (i + R1.length) := by
  intro R1
  induction R1 with
  | nil =>
    intro R2 i _
    rw [List.nil_append, bestOf, lookupBest, List.find?_cons]
    rw [show (decide ((r.topState, i).1 = k)) = true from by simp [hrk]]
    simp
  | cons x xs ih =>
    intro R2 i h
    rw [List.cons_append, bestOf, lookupBest, List.find?_cons]
    rw [show (decide ((x.topState, i).1 = k)) = false from by
      simp
      exact h x (List.mem_cons_self _ _)]
    rw [show ((List.find? (fun q => decide (q.1 = k))
        (bestOf (xs ++ r :: R2) (i + 1))).map (fun q => q.2)) =
        lookupBest (bestOf (xs ++ r :: R2) (i + 1)) k from rfl]
    rw [ih R2 (i + 1) (fun y hy => h y (List.mem_cons_of_mem _ hy))]
    rw [show i + 1 + xs.length = i + (x :: xs).length from by simp; omega]

theorem set_append_len {α : Type} (w : α) :
    ∀ (R1 : List α) (r : α) (R2 : List α),
      (R1 ++ r :: R2).set R1.length w = R1 ++ w :: R2 := by
  intro R1
  induction R1 with
  | nil => intro r R2; rfl
  | cons x xs ih =>
    intro r R2
    rw [List.cons_append, List.length_cons]
    show x :: (xs ++ r :: R2).set xs.length w = x :: xs ++ w :: R2
    rw [ih, List.cons_append]

theorem bestOf_keys_eq (w r : glrStack) (hk : w.topState = r.topState) :
    ∀ (R1 : List glrStack) (R2 : List glrStack) (i : Nat),
      bestOf (R1 ++ w :: R2) i = bestOf (R1 ++ r :: R2) i := by
  intro R1
  induction R1 with
  | nil => intro R2 i; simp [bestOf, hk]
  | cons x xs ih => intro R2 i; simp [bestOf, ih]

theorem mergeHashed_fold (alive : List glrStack) :
    alive.foldl mergeHashedStep ([], []) =
      (bestOf (mergeLinear alive) 0, mergeLinear alive) := by
  induction alive using List.reverseRecOn with
  | nil => rfl
  | append_singleton l s ih =>
    rw [List.foldl_append, ih, mergeLinear_append, List.foldl_cons, List.foldl_nil]
    obtain ⟨ih1, ih2, ih3⟩ := mergeLinear_spec l
    by_cases hm : s.topState ∈ (mergeLinear l).map glrStack.topState
    · obtain ⟨R1, r, R2, hR, hrk, hR1, hmi⟩ := mergeInto_mem_key s (mergeLinear l) hm
      have hl : lookupBest (bestOf (mergeLinear l) 0) s.topState = some R1.length := by
        rw [hR]
        have := lookupBest_split s.topState r hrk R1 R2 0 (fun x hx => hR1 x hx)
        simpa using this
      have hcur : (mergeLinear l).getD R1.length s = r := by
        rw [hR]
        exact getD_append_self _ _ _ _
      simp only [mergeHashedStep, hl, hcur]
      rw [hmi, hR, set_append_len]
      rw [bestOf_keys_eq (if s.score > r.score then s else r) r (by
        split
        · exact hrk.symm
        · rfl) R1 R2 0]
    · have hl : lookupBest (bestOf (mergeLinear l) 0) s.topState = none :=
        lookupBest_not_mem _ (mergeLinear l) 0 hm
      simp only [mergeHashedStep, hl]
      rw [mergeInto_not_mem s (mergeLinear l) hm, bestOf_append]
      simp

theorem mergeHashed_eq_linear (alive : List glrStack) :
    mergeHashed alive = mergeLinear alive := by
  rw [mergeHashed, mergeHashed_fold]

/-- **C1.** The merge step returns exactly the non-dead stacks grouped by
top state: the output (in both sizing regimes) equals the spec-side
grouping `mergeSpec`; every surviving stack is non-dead; the output's top
states are the first-seen top states of the non-dead input stacks, in
order; each surviving stack is the first highest-scoring stack of its top
state group; and the hashed regime computes the same result as the linear
regime. -/
theorem mergeStacks_glr_spec :
    (∀ sts : List glrStack,
      mergeStacksWithScratch sts = mergeSpec sts ∧
      (∀ s ∈ mergeStacksWithScratch sts, s.dead = false) ∧
      (mergeStacksWithScratch sts).map glrStack.topState =
        firstSeenKeys (sts.filter (fun s => !s.dead)) ∧
      (∀ s ∈ mergeStacksWithScratch sts,
        pickFirstMax ((sts.filter (fun q => !q.dead)).filter
          (fun t => decide (t.topState = s.topState))) = some s)) ∧
    (∀ alive : List glrStack, mergeHashed alive = mergeLinear alive) := by
  have hmain : ∀ sts : List glrStack,
      mergeStacksWithScratch sts = mergeLinear (sts.filter (fun s => !s.dead)) := by
    intro sts
    rw [mergeStacksWithScratch]
    by_cases h1 : (sts.filter (fun s => !s.dead)).length ≤ 1
    · rw [if_pos h1, mergeLinear_short _ h1]
    · rw [if_neg h1]
      by_cases h2 : (sts.filter (fun s => !s.dead)).length ≤ 64
      · rw [if_pos h2]
      · rw [if_neg h2, mergeHashed_eq_linear]
  refine ⟨?_, mergeHashed_eq_linear⟩
  intro sts
  obtain ⟨h1, h2, h3⟩ := mergeLinear_spec (sts.filter (fun s => !s.dead))
  refine ⟨?_, ?_, ?_, ?_⟩
  · rw [hmain, mergeSpec]
    exact (mergeLinear_eq_spec (sts.filter (fun s => !s.dead))).symm
  · intro s hs
    rw [hmain] at hs
    have hmem := h2 s hs
    have := List.mem_filter.1 hmem
    simpa using this.2
  · rw [hmain]
    exact h1
  · intro s hs
    rw [hmain] at hs
    exact h3 s hs

theorem mergeStacks_glr_spec_witness :
    mergeStacksWithScratch
      [⟨[⟨1, none⟩], 0, true, false⟩, ⟨[⟨3, none⟩], 5, false, false⟩,
       ⟨[⟨3, none⟩], 2, false, false⟩] =
      mergeSpec
        [⟨[⟨1, none⟩], 0, true, false⟩, ⟨[⟨3, none⟩], 5, false, false⟩,
         ⟨[⟨3, none⟩], 2, false, false⟩] ∧
    pickFirstMax
      (([⟨[⟨1, none⟩], 0, true, false⟩, ⟨[⟨3, none⟩], 5, false, false⟩,
         ⟨[⟨3, none⟩], 2, false, false⟩].filter (fun q => !q.dead)).filter
        (fun t => decide (t.topState = (⟨[⟨3, none⟩], 5, false, false⟩ : glrStack).topState))) =
      some ⟨[⟨3, none⟩], 5, false, false⟩ :=
  ⟨(mergeStacks_glr_spec.1
      [⟨[⟨1, none⟩], 0, true, false⟩, ⟨[⟨3, none⟩], 5, false, false⟩,
       ⟨[⟨3, none⟩], 2, false, false⟩]).1,
   (mergeStacks_glr_spec.1
      [⟨[⟨1, none⟩], 0, true, false⟩, ⟨[⟨3, none⟩], 5, false, false⟩,
       ⟨[⟨3, none⟩], 2, false, false⟩]).2.2.2
     ⟨[⟨3, none⟩], 5, false, false⟩ (by decide)⟩

end GoTreeSitter
